import Mathlib

/-!
Verification of the zhuxiantranslate localization pipeline.

This file gives a shallow embedding, in Lean 4, of the core algorithms of the
pipeline:

* the identity-model hash functions of `2_normalize_files.py`
  (`normalize_line_endings_for_hash`, `calculate_optimized_cityhash64_utf16_key_hash`,
  `calculate_source_string_hash`);
* the translation resolver of `3_translate_unified_json.py`
  (`extract_number_pattern`, `replace_numbers_in_translation`,
  `find_existing_translation_elsewhere` with its session cache);
* the rule-based post-processing engine of `3_translate_unified_json.py`
  (`execute_single_string_post_processing`);
* the `.locres` string-table construction of `4_generate_translations.py`
  (`generate_locres_file_v3_with_hashes`), and `break_text_at_spaces`.

Python strings are modelled as Lean `String`/`List Char`; byte strings as
`List Nat` (each element < 256); machine integers as `Nat` with explicit
masking where the code masks.  External C libraries (`cityhash.CityHash64`,
OpenCC conversion) are modelled as function parameters, since their code is
not part of this repository; `zlib.crc32` is the standard IEEE CRC-32,
implemented here bit by bit.
-/

namespace Zxsj

/-- `isPrefixL pat l` decides whether `pat` is a prefix of `l`
(used to model matching a Python substring at a fixed position). -/
def isPrefixL : List Char → List Char → Bool
  | [], _ => true
  | _ :: _, [] => false
  | p :: ps, c :: cs => p == c && isPrefixL ps cs

/-- Python's `pat in s` substring containment test. -/
def containsSub (hay pat : List Char) : Bool :=
  match hay with
  | [] => isPrefixL pat []
  | _ :: t => isPrefixL pat hay || containsSub t pat

/-- Python `str.replace(pat, rep)`: replace all non-overlapping occurrences of
`pat`, scanning left to right.  (All call sites in the pipeline use a
non-empty `pat`; for `pat = []` this is the identity, whereas Python would
interleave `rep` everywhere — no call site does that.) -/
def replaceAll (pat rep : List Char) : List Char → List Char
  | [] => []
  | c :: rest =>
    if h : isPrefixL pat (c :: rest) = true ∧ pat ≠ [] then
      rep ++ replaceAll pat rep ((c :: rest).drop pat.length)
    else
      c :: replaceAll pat rep rest
termination_by s => s.length
decreasing_by
  · simp only [List.length_drop, List.length_cons]
    have hp : pat.length ≠ 0 := by
      intro h0
      exact h.2 (List.length_eq_zero.mp h0)
    omega
  · simp

/-- `normalize_line_endings_for_hash` from `2_normalize_files.py` (lines 19-22):
`text.replace('\r\n', '\n').replace('\r', '\n').replace('\n', '\r\n')`. -/
def normalize_line_endings_for_hash (text : String) : String :=
  let s1 := replaceAll ['\r', '\n'] ['\n'] text.data
  let s2 := replaceAll ['\r'] ['\n'] s1
  let s3 := replaceAll ['\n'] ['\r', '\n'] s2
  String.mk s3

/-- UTF-16 code units of one Unicode scalar value (surrogate pair for
code points above U+FFFF).  Lean `Char` is a Unicode scalar value, exactly
the values a well-formed Python `str` holds. -/
def utf16CodeUnits (c : Char) : List Nat :=
  let v := c.toNat
  if v < 0x10000 then [v]
  else
    let w := v - 0x10000
    [0xD800 + w / 0x400, 0xDC00 + w % 0x400]

/-- Python `str.encode('utf-16-le')`: each UTF-16 code unit as two bytes,
little-endian. -/
def utf16leBytes (s : List Char) : List Nat :=
  (s.map (fun c => (utf16CodeUnits c).map (fun u => [u % 256, u / 256 % 256]))).flatten.flatten

/-- `calculate_optimized_cityhash64_utf16_key_hash` from `2_normalize_files.py`
(lines 24-36).  `CityHash64` comes from the external `cityhash` C library
(not part of this repository), so it is a parameter here; the function under
verification is everything around it: CRLF normalization, UTF-16LE encoding,
and the 64-to-32-bit fold `(low32 + high32*23) & 0xFFFFFFFF`. -/
def calculate_optimized_cityhash64_utf16_key_hash
    (cityHash64 : List Nat → Nat) (key_string : String) : Nat :=
  let normalized_key := normalize_line_endings_for_hash key_string
  let encoded_key_bytes := utf16leBytes normalized_key.data
  let h64 := cityHash64 encoded_key_bytes
  let low32 := h64 &&& 0xFFFFFFFF
  let high32 := (h64 >>> 32) &&& 0xFFFFFFFF
  (low32 + high32 * 23) &&& 0xFFFFFFFF

/-- The key hash as the spec describes it: normalize line endings to CRLF,
encode as UTF-16LE, run the 64-bit CityHash, then fold to 32 bits as
`(low32 + high32*23) mod 2^32` (arithmetic `%` and `/`, not bit masking). -/
def keyHashSpec (cityHash64 : List Nat → Nat) (s : String) : Nat :=
  let h := cityHash64 (utf16leBytes (normalize_line_endings_for_hash s).data)
  (h % 2 ^ 32 + h / 2 ^ 32 % 2 ^ 32 * 23) % 2 ^ 32

/-- One bit step of the (reflected) IEEE CRC-32 used by `zlib.crc32`. -/
def crc32BitStep (c : Nat) : Nat :=
  if c % 2 = 1 then (c / 2) ^^^ 0xEDB88320 else c / 2

/-- Fold one byte into the CRC-32 accumulator. -/
def crc32Byte (c b : Nat) : Nat :=
  crc32BitStep (crc32BitStep (crc32BitStep (crc32BitStep
    (crc32BitStep (crc32BitStep (crc32BitStep (crc32BitStep (c ^^^ b))))))))

/-- `zlib.crc32(bytes)`: standard IEEE CRC-32 (reflected, init and final xor
`0xFFFFFFFF`). -/
def crc32 (bytes : List Nat) : Nat :=
  (bytes.foldl crc32Byte 0xFFFFFFFF) ^^^ 0xFFFFFFFF

/-- `calculate_source_string_hash` from `2_normalize_files.py` (lines 38-42):
`zlib.crc32(text.encode('utf-16-le') + b'\x00\x00') & 0xFFFFFFFF`. -/
def calculate_source_string_hash (text : String) : Nat :=
  let encoded := utf16leBytes text.data ++ [0x00, 0x00]
  crc32 encoded &&& 0xFFFFFFFF

/-- The source-string hash as the spec describes it: CRC32 over the UTF-16LE
encoding followed by a two-byte null terminator, reduced mod 2^32. -/
def sourceStringHashSpec (text : String) : Nat :=
  crc32 (utf16leBytes text.data ++ [0x00, 0x00]) % 2 ^ 32

set_option maxRecDepth 8192 in
/-- Sanity check of the CRC-32 implementation against the standard check
value: CRC32 of the ASCII bytes of "123456789" is 0xCBF43926. -/
theorem crc32_check_value :
    crc32 [0x31, 0x32, 0x33, 0x34, 0x35, 0x36, 0x37, 0x38, 0x39] = 0xCBF43926 := by
  decide

/-- C1: for every CityHash64 oracle and every string, the key hash equals
the spec's composition — CRLF-normalize, UTF-16LE-encode, CityHash64, fold to
32 bits as `(low32 + high32*23) mod 2^32` — and the function is pure: two
calls on the same input yield the same value. -/
theorem key_hash_matches_spec_and_is_pure (cityHash64 : List Nat → Nat) (s : String) :
    calculate_optimized_cityhash64_utf16_key_hash cityHash64 s = keyHashSpec cityHash64 s ∧
    calculate_optimized_cityhash64_utf16_key_hash cityHash64 s =
      calculate_optimized_cityhash64_utf16_key_hash cityHash64 s := by
  constructor
  · unfold calculate_optimized_cityhash64_utf16_key_hash keyHashSpec
    have hmask : (0xFFFFFFFF : Nat) = 2 ^ 32 - 1 := by norm_num
    simp only [hmask, Nat.and_pow_two_sub_one_eq_mod, Nat.shiftRight_eq_div_pow]
  · rfl

/-- C2: for every string, the source-string hash equals CRC32 over the
UTF-16LE encoding of the string followed by a trailing two-byte null
terminator, reduced mod 2^32. -/
theorem source_string_hash_matches_spec (s : String) :
    calculate_source_string_hash s = sourceStringHashSpec s := by
  unfold calculate_source_string_hash sourceStringHashSpec
  have hmask : (0xFFFFFFFF : Nat) = 2 ^ 32 - 1 := by norm_num
  simp only [hmask, Nat.and_pow_two_sub_one_eq_mod]

/-! ### `break_text_at_spaces` (4_generate_translations.py, lines 550-569) -/

/-- Python `text.rfind(' ', start, stop)` restricted to `count` candidate
offsets: the largest `p` with `start ≤ p < start + count`, `p` in range, and
`text[p] = ' '`; `none` when there is no such `p` (Python returns `-1`). -/
def pyRfindSpaceAux (text : List Char) (start : Nat) : Nat → Option Nat
  | 0 => none
  | n + 1 =>
    if start + n < text.length ∧ text.getD (start + n) '\u0000' = ' ' then
      some (start + n)
    else
      pyRfindSpaceAux text start n

/-- Python `text.rfind(' ', start, stop)` (searching indices `start ≤ p < stop`). -/
def pyRfindSpace (text : List Char) (start stop : Nat) : Option Nat :=
  pyRfindSpaceAux text start (stop - start)

/-- The chunking loop of `break_text_at_spaces`: from `start`, repeatedly cut
a line of at most `maxLen` characters, preferring the rightmost space within
reach (`rfind(' ', start, start+maxLen+1)`), else a hard break of exactly
`maxLen` characters; the final piece (at most `maxLen` long) is emitted
whole.  With `maxLen = 0` the Python loop would not terminate; that case
(outside the claimed domain `max_len ≥ 1`) is short-circuited here. -/
def breakLoop (text : List Char) (maxLen : Nat) (start : Nat) : List (List Char) :=
  if _h0 : maxLen = 0 then [text.drop start]
  else if _h1 : start < text.length then
    if text.length - start ≤ maxLen then
      [text.drop start]
    else
      match pyRfindSpace text start (start + maxLen + 1) with
      | some p =>
        if _h2 : start < p then
          (text.drop start).take (p - start) :: breakLoop text maxLen (p + 1)
        else
          (text.drop start).take maxLen :: breakLoop text maxLen (start + maxLen)
      | none =>
        (text.drop start).take maxLen :: breakLoop text maxLen (start + maxLen)
  else []
termination_by text.length - start
decreasing_by
  all_goals omega

/-- `'\n'.join(lines)`. -/
def joinNl : List (List Char) → List Char
  | [] => []
  | [c] => c
  | c :: c2 :: cs => c ++ '\n' :: joinNl (c2 :: cs)

/-- `break_text_at_spaces` from `4_generate_translations.py` (lines 550-569). -/
def break_text_at_spaces (text_content : String) (max_len : Nat) : String :=
  if text_content.data.length ≤ max_len then text_content
  else String.mk (joinNl (breakLoop text_content.data max_len 0))

/-- Splitting a character list at `'\n'` (the "newline-separated lines" of a
string; mirrors Python `str.split('\n')`). -/
def splitNl : List Char → List (List Char)
  | [] => [[]]
  | c :: rest =>
    match splitNl rest with
    | [] => [[c]]
    | h :: t => if c = '\n' then [] :: h :: t else (c :: h) :: t

theorem splitNl_cons_eq (c : Char) (rest h : List Char) (t : List (List Char))
    (hr : splitNl rest = h :: t) :
    splitNl (c :: rest) = if c = '\n' then [] :: h :: t else (c :: h) :: t := by
  simp only [splitNl, hr]

theorem splitNl_ne_nil (s : List Char) : splitNl s ≠ [] := by
  cases s with
  | nil => simp [splitNl]
  | cons c rest =>
    simp only [splitNl]
    cases splitNl rest with
    | nil => simp
    | cons h t =>
      by_cases hc : c = '\n' <;> simp [hc]

theorem splitNl_append_newline (a b : List Char) :
    splitNl (a ++ '\n' :: b) = splitNl a ++ splitNl b := by
  induction a with
  | nil =>
    simp only [List.nil_append, splitNl]
    cases hb : splitNl b with
    | nil => exact absurd hb (splitNl_ne_nil b)
    | cons h t => simp
  | cons c a ih =>
    cases ha : splitNl a with
    | nil => exact absurd ha (splitNl_ne_nil a)
    | cons h t =>
      have hab : splitNl (a ++ '\n' :: b) = h :: (t ++ splitNl b) := by
        rw [ih, ha]; rfl
      rw [List.cons_append, splitNl_cons_eq c _ _ _ hab, splitNl_cons_eq c _ _ _ ha]
      by_cases hc : c = '\n' <;> simp [hc]

theorem splitNl_length_le (s : List Char) : ∀ l ∈ splitNl s, l.length ≤ s.length := by
  induction s with
  | nil => intro l hl; simp [splitNl] at hl; simp [hl]
  | cons c rest ih =>
    intro l hl
    cases hr : splitNl rest with
    | nil => exact absurd hr (splitNl_ne_nil rest)
    | cons h t =>
      simp only [splitNl, hr] at hl
      by_cases hc : c = '\n'
      · rw [if_pos hc] at hl
        rcases List.mem_cons.mp hl with rfl | hl2
        · simp
        · have := ih l (by rw [hr]; exact hl2)
          simp only [List.length_cons]; omega
      · rw [if_neg hc] at hl
        rcases List.mem_cons.mp hl with rfl | hl2
        · have := ih h (by rw [hr]; exact List.mem_cons_self h t)
          simp only [List.length_cons]; omega
        · have := ih l (by rw [hr]; exact List.mem_cons_of_mem h hl2)
          simp only [List.length_cons]; omega

/-- Lines of a `'\n'`-join of chunks are no longer than the longest chunk. -/
theorem splitNl_joinNl_le (n : Nat) :
    ∀ chunks : List (List Char), (∀ c ∈ chunks, c.length ≤ n) →
      ∀ l ∈ splitNl (joinNl chunks), l.length ≤ n := by
  intro chunks
  induction chunks with
  | nil =>
    intro _ l hl
    simp only [joinNl, splitNl, List.mem_singleton] at hl
    simp [hl]
  | cons c cs ih =>
    intro hc l hl
    cases cs with
    | nil =>
      have hle := splitNl_length_le (joinNl [c]) l hl
      have := hc c (by simp)
      simp only [joinNl] at hle
      omega
    | cons c2 cs2 =>
      simp only [joinNl, splitNl_append_newline, List.mem_append] at hl
      rcases hl with hl | hl
      · have := splitNl_length_le c l hl
        have := hc c (by simp)
        omega
      · exact ih (fun x hx => hc x (List.mem_cons_of_mem c hx)) l hl

theorem pyRfindSpaceAux_lt (text : List Char) (start : Nat) :
    ∀ cnt p, pyRfindSpaceAux text start cnt = some p → start ≤ p ∧ p < start + cnt := by
  intro cnt
  induction cnt with
  | zero => intro p hq; simp [pyRfindSpaceAux] at hq
  | succ n ihn =>
    intro p hq
    simp only [pyRfindSpaceAux] at hq
    split at hq
    · simp only [Option.some.injEq] at hq
      omega
    · have := ihn p hq
      omega

/-- Every chunk produced by the chunking loop (with `maxLen ≥ 1`) has length
at most `maxLen`. -/
theorem breakLoop_chunk_le (text : List Char) (maxLen : Nat) (hm : 1 ≤ maxLen) :
    ∀ start, ∀ c ∈ breakLoop text maxLen start, c.length ≤ maxLen := by
  intro start
  induction start using breakLoop.induct text maxLen with
  | case1 start h0 => omega
  | case2 start h0 h1 hle =>
    intro c hc
    rw [breakLoop] at hc
    simp only [dif_neg h0, dif_pos h1, if_pos hle, List.mem_singleton] at hc
    subst hc
    simp only [List.length_drop]
    omega
  | case3 start h0 h1 hgt p hp h2 ih =>
    intro c hc
    rw [breakLoop] at hc
    simp only [dif_neg h0, dif_pos h1, if_neg hgt, hp, dif_pos h2, List.mem_cons] at hc
    rcases hc with rfl | hc
    · have hplt := pyRfindSpaceAux_lt text start _ p hp
      simp only [List.length_take, List.length_drop]
      omega
    · exact ih c hc
  | case4 start h0 h1 hgt p hp h2 ih =>
    intro c hc
    rw [breakLoop] at hc
    simp only [dif_neg h0, dif_pos h1, if_neg hgt, hp, dif_neg h2, List.mem_cons] at hc
    rcases hc with rfl | hc
    · simp only [List.length_take]; omega
    · exact ih c hc
  | case5 start h0 h1 hgt hp ih =>
    intro c hc
    rw [breakLoop] at hc
    simp only [dif_neg h0, dif_pos h1, if_neg hgt, hp, List.mem_cons] at hc
    rcases hc with rfl | hc
    · simp only [List.length_take]; omega
    · exact ih c hc
  | case6 start h0 h1 =>
    intro c hc
    rw [breakLoop] at hc
    simp only [dif_neg h0, dif_neg h1] at hc
    exact absurd hc (List.not_mem_nil c)

/-- C10: for every string and every `max_len ≥ 1`, the line-breaking
transform `break_text_at_spaces` terminates (it is a total Lean function),
every newline-separated line of its result has length at most `max_len`, and
when the input is no longer than `max_len` the result is the input
unchanged. -/
theorem break_text_at_spaces_lines_bounded (t : String) (max_len : Nat) (hm : 1 ≤ max_len) :
    (∀ l ∈ splitNl (break_text_at_spaces t max_len).data, l.length ≤ max_len) ∧
    (t.data.length ≤ max_len → break_text_at_spaces t max_len = t) := by
  constructor
  · intro l hl
    unfold break_text_at_spaces at hl
    by_cases hle : t.data.length ≤ max_len
    · rw [if_pos hle] at hl
      have := splitNl_length_le t.data l hl
      omega
    · rw [if_neg hle] at hl
      exact splitNl_joinNl_le max_len (breakLoop t.data max_len 0)
        (breakLoop_chunk_le t.data max_len hm 0) l hl
  · intro hle
    unfold break_text_at_spaces
    rw [if_pos hle]

/-- Witness for C10 at a concrete input. -/
theorem break_text_at_spaces_lines_bounded_witness :
    (∀ l ∈ splitNl (break_text_at_spaces "ab cde" 3).data, l.length ≤ 3) ∧
    (("ab cde" : String).data.length ≤ 3 → break_text_at_spaces "ab cde" 3 = "ab cde") :=
  break_text_at_spaces_lines_bounded "ab cde" 3 (by decide)

/-! ### String-table construction of `generate_locres_file_v3_with_hashes`
(4_generate_translations.py, lines 111-156)

The encoder's first pass walks every entry of every namespace in order and
builds `string_to_index_map` (value → `{index, ref_count}`) together with
`string_table_values` (first-seen order).  Entry records then carry
`string_to_index_map[translated_value]["index"]`, and the table itself is
written as each value followed by its `ref_count`.  We model the Python dict
as an association list looked up by key equality (string equality coincides
with byte-identity of the UTF-16 encodings, which is injective). -/

/-- One entry of the `all_namespace_data` input (the fields used by the
encoder). -/
structure LocresEntry where
  key_hash : Nat
  key_string : String
  source_string_hash : Nat
  translated_value : String
deriving DecidableEq

/-- One namespace of the `all_namespace_data` input. -/
structure NamespaceData where
  namespace_hash : Nat
  namespace_name : String
  entries : List LocresEntry
deriving DecidableEq

/-- Association-list lookup modelling Python `dict` access by key. -/
def lookupVal (map : List (String × Nat × Nat)) (v : String) : Option (Nat × Nat) :=
  match map with
  | [] => none
  | (k, iv) :: rest => if k = v then some iv else lookupVal rest v

/-- One step of the first encoder pass: `if translated_val not in
string_to_index_map: append to the table with ref_count 1, else increment
ref_count`. -/
def stAdd (st : List String × List (String × Nat × Nat)) (v : String) :
    List String × List (String × Nat × Nat) :=
  match lookupVal st.2 v with
  | none => (st.1 ++ [v], st.2 ++ [(v, st.1.length, 1)])
  | some _ =>
    (st.1, st.2.map (fun e => if e.1 = v then (e.1, e.2.1, e.2.2 + 1) else e))

/-- All `translated_value`s of all entries, in the order the encoder visits
them. -/
def allTranslatedValues (all : List NamespaceData) : List String :=
  (all.map (fun ns => ns.entries.map (·.translated_value))).flatten

/-- The encoder's string table state after the first pass:
`(string_table_values, string_to_index_map)`. -/
def buildStringTable (all : List NamespaceData) :
    List String × List (String × Nat × Nat) :=
  (allTranslatedValues all).foldl stAdd ([], [])

/-- The string-table index the encoder writes into the record of an entry
with final value `v`. -/
def entryRecordIndex (all : List NamespaceData) (v : String) : Option Nat :=
  (lookupVal (buildStringTable all).2 v).map (·.1)

/-- The string table as written: each distinct value in first-seen order with
its stored reference count. -/
def stringTableOut (all : List NamespaceData) : List (String × Nat) :=
  (buildStringTable all).1.map
    (fun v => (v, ((lookupVal (buildStringTable all).2 v).map (·.2)).getD 0))

/-- Invariant tying the table state to the multiset of processed values. -/
def STInv (processed : List String) (st : List String × List (String × Nat × Nat)) : Prop :=
  st.1.Nodup ∧
  (∀ v, v ∈ st.1 ↔ v ∈ processed) ∧
  (∀ v i c, lookupVal st.2 v = some (i, c) → st.1.get? i = some v ∧ c = processed.count v) ∧
  (∀ v, lookupVal st.2 v = none → v ∉ processed)

theorem lookupVal_append (m₁ m₂ : List (String × Nat × Nat)) (v : String) :
    lookupVal (m₁ ++ m₂) v =
      match lookupVal m₁ v with
      | none => lookupVal m₂ v
      | some iv => some iv := by
  induction m₁ with
  | nil => simp [lookupVal]
  | cons e rest ih =>
    obtain ⟨k, iv⟩ := e
    by_cases hk : k = v
    · simp [lookupVal, hk]
    · simp [lookupVal, hk, ih]

theorem lookupVal_map_bump (m : List (String × Nat × Nat)) (v w : String) :
    lookupVal (m.map (fun e => if e.1 = v then (e.1, e.2.1, e.2.2 + 1) else e)) w =
      if w = v then (lookupVal m w).map (fun iv => (iv.1, iv.2 + 1))
      else lookupVal m w := by
  induction m with
  | nil => simp [lookupVal]
  | cons e rest ih =>
    obtain ⟨k, i, c⟩ := e
    have hbeta : (fun e : String × Nat × Nat =>
        if e.1 = v then (e.1, e.2.1, e.2.2 + 1) else e) (k, i, c) =
        if k = v then (k, i, c + 1) else (k, i, c) := rfl
    simp only [List.map_cons, hbeta]
    by_cases hk : k = v
    · rw [if_pos hk]
      subst hk
      by_cases hw : w = k
      · subst hw
        simp [lookupVal, ih]
      · have hkw : ¬ (k = w) := fun h => hw h.symm
        simp [lookupVal, hkw, hw, ih]
    · rw [if_neg hk]
      by_cases hw : k = w
      · subst hw
        have hkv : ¬ (k = v) := hk
        simp [lookupVal, hkv]
      · simp [lookupVal, hw, ih]

theorem count_append_singleton (l : List String) (a b : String) :
    (l ++ [b]).count a = l.count a + (if b = a then 1 else 0) := by
  simp [List.count_append, List.count_singleton']

theorem stAdd_inv (processed : List String) (st : List String × List (String × Nat × Nat))
    (h : STInv processed st) (v : String) : STInv (processed ++ [v]) (stAdd st v) := by
  obtain ⟨hnd, hmem, hsome, hnone⟩ := h
  unfold stAdd
  cases hl : lookupVal st.2 v with
  | none =>
    have hvnotin : v ∉ st.1 := by
      intro hin
      exact (hnone v hl) ((hmem v).mp hin)
    refine ⟨?_, ?_, ?_, ?_⟩
    · refine List.Nodup.append hnd (List.nodup_singleton v) ?_
      intro a ha hav
      rw [List.mem_singleton] at hav
      subst hav
      exact hvnotin ha
    · intro w
      simp only [List.mem_append, List.mem_singleton, hmem]
    · intro w i c hw
      rw [lookupVal_append] at hw
      cases hw2 : lookupVal st.2 w with
      | some iv =>
        rw [hw2] at hw
        simp only at hw
        rw [hw] at hw2
        obtain ⟨h1, h2⟩ := hsome w i c hw2
        constructor
        · rw [List.get?_append (by
            have := List.get?_eq_some.mp h1
            exact this.1)]
          exact h1
        · have hwv : w ≠ v := by
            intro hwv
            subst hwv
            rw [hl] at hw2
            exact Option.noConfusion hw2
          rw [count_append_singleton, if_neg (fun h => hwv h.symm)]
          omega
      | none =>
        rw [hw2] at hw
        simp only [lookupVal] at hw
        by_cases hvw : v = w
        · subst hvw
          rw [if_pos rfl] at hw
          simp only [Option.some.injEq, Prod.mk.injEq] at hw
          obtain ⟨hi, hc⟩ := hw
          constructor
          · rw [← hi]
            rw [List.get?_append_right (le_refl _)]
            simp
          · have hc0 : processed.count v = 0 := by
              rw [List.count_eq_zero]
              intro hin
              exact (hnone v hw2) hin
            rw [count_append_singleton, if_pos rfl]
            omega
        · rw [if_neg hvw] at hw
          exact Option.noConfusion hw
    · intro w hw
      rw [lookupVal_append] at hw
      cases hw2 : lookupVal st.2 w with
      | some iv => rw [hw2] at hw; exact Option.noConfusion hw
      | none =>
        rw [hw2] at hw
        simp only [lookupVal] at hw
        by_cases hvw : v = w
        · rw [if_pos hvw] at hw
          exact Option.noConfusion hw
        · rw [if_neg hvw] at hw
          simp only [List.mem_append, List.mem_singleton]
          rintro (hin | hin)
          · exact (hnone w hw2) hin
          · exact hvw hin.symm
  | some iv =>
    refine ⟨hnd, ?_, ?_, ?_⟩
    · intro w
      rw [hmem w]
      simp only [List.mem_append, List.mem_singleton]
      constructor
      · exact fun h => Or.inl h
      · rintro (h | rfl)
        · exact h
        · have := hsome w iv.1 iv.2 (by simpa using hl)
          have hv1 : w ∈ st.1 := List.get?_mem this.1
          exact (hmem w).mp hv1
    · intro w i c hw
      rw [lookupVal_map_bump] at hw
      by_cases hwv : w = v
      · rw [if_pos hwv] at hw
        cases hw3 : lookupVal st.2 w with
        | none => rw [hw3] at hw; exact Option.noConfusion hw
        | some iv2 =>
          rw [hw3] at hw
          have hw' : some (iv2.1, iv2.2 + 1) = some (i, c) := hw
          have hpair := Option.some.inj hw'
          have hi : iv2.1 = i := congrArg Prod.fst hpair
          have hc : iv2.2 + 1 = c := congrArg Prod.snd hpair
          obtain ⟨h1, h2⟩ := hsome w iv2.1 iv2.2 (by simpa using hw3)
          subst hwv
          constructor
          · rw [← hi]; exact h1
          · rw [count_append_singleton, if_pos rfl]
            omega
      · rw [if_neg hwv] at hw
        obtain ⟨h1, h2⟩ := hsome w i c hw
        refine ⟨h1, ?_⟩
        rw [count_append_singleton, if_neg (fun h => hwv h.symm)]
        omega
    · intro w hw
      rw [lookupVal_map_bump] at hw
      by_cases hwv : w = v
      · rw [if_pos hwv] at hw
        cases hw3 : lookupVal st.2 w with
        | none =>
          subst hwv
          rw [hw3] at hl
          exact Option.noConfusion hl
        | some iv2 => rw [hw3] at hw; exact Option.noConfusion hw
      · rw [if_neg hwv] at hw
        simp only [List.mem_append, List.mem_singleton]
        rintro (hin | hin)
        · exact (hnone w hw) hin
        · exact hwv hin

theorem foldl_stAdd_inv (vs : List String) :
    ∀ processed st, STInv processed st →
      STInv (processed ++ vs) (vs.foldl stAdd st) := by
  induction vs with
  | nil => intro p st h; simpa using h
  | cons v rest ih =>
    intro p st h
    have := ih (p ++ [v]) (stAdd st v) (stAdd_inv p st h v)
    simpa using this

theorem buildStringTable_inv (all : List NamespaceData) :
    STInv (allTranslatedValues all) (buildStringTable all) := by
  have := foldl_stAdd_inv (allTranslatedValues all) [] ([], [])
    (by
      refine ⟨List.nodup_nil, by simp, ?_, by simp⟩
      intro v i c h
      simp [lookupVal] at h)
  simpa using this

/-- C3: in the encoder's output, every value occurring among the entries has
exactly one copy in the string table; each entry record with that value
carries the same string-table index `i`, which points at that copy; and the
table stores the value with reference count equal to the number of entries
pointing at it (so two sharing entries give reference count 2). -/
theorem locres_string_table_dedup (all : List NamespaceData) (v : String)
    (hv : v ∈ allTranslatedValues all) :
    ∃ i,
      entryRecordIndex all v = some i ∧
      (buildStringTable all).1.get? i = some v ∧
      (buildStringTable all).1.count v = 1 ∧
      (v, (allTranslatedValues all).count v) ∈ stringTableOut all ∧
      (∀ ns₁, ns₁ ∈ all → ∀ e₁, e₁ ∈ ns₁.entries → e₁.translated_value = v →
        entryRecordIndex all e₁.translated_value = some i) := by
  obtain ⟨hnd, hmem, hsome, hnone⟩ := buildStringTable_inv all
  cases hl : lookupVal (buildStringTable all).2 v with
  | none => exact absurd hv (hnone v hl)
  | some iv =>
    obtain ⟨i, c⟩ := iv
    obtain ⟨h1, h2⟩ := hsome v i c hl
    refine ⟨i, ?_, h1, ?_, ?_, ?_⟩
    · unfold entryRecordIndex
      rw [hl]
      rfl
    · exact List.count_eq_one_of_mem hnd ((hmem v).mpr hv)
    · unfold stringTableOut
      have hvmem : v ∈ (buildStringTable all).1 := (hmem v).mpr hv
      have hmemmap := List.mem_map_of_mem
        (fun w => (w, ((lookupVal (buildStringTable all).2 w).map (·.2)).getD 0)) hvmem
      have hmemmap2 :
          (v, ((lookupVal (buildStringTable all).2 v).map (·.2)).getD 0) ∈
            (buildStringTable all).1.map
              (fun w => (w, ((lookupVal (buildStringTable all).2 w).map (·.2)).getD 0)) :=
        hmemmap
      have h4 : ((lookupVal (buildStringTable all).2 v).map (·.2)).getD 0 = c := by
        rw [hl]
        rfl
      rw [← h2]
      exact h4 ▸ hmemmap2
    · intro ns₁ _ e₁ _ he
      rw [he]
      unfold entryRecordIndex
      rw [hl]
      rfl

/-- Witness for C3: two distinct keys sharing the byte-identical value
"Hello" get one table slot with reference count 2. -/
theorem locres_string_table_dedup_witness :
    ∃ i,
      entryRecordIndex
        [⟨100, "ns1", [⟨1, "k1", 10, "Hello"⟩, ⟨2, "k2", 11, "Hello"⟩]⟩] "Hello" = some i ∧
      (buildStringTable
        [⟨100, "ns1", [⟨1, "k1", 10, "Hello"⟩, ⟨2, "k2", 11, "Hello"⟩]⟩]).1.get? i =
        some "Hello" ∧
      (buildStringTable
        [⟨100, "ns1", [⟨1, "k1", 10, "Hello"⟩, ⟨2, "k2", 11, "Hello"⟩]⟩]).1.count "Hello" = 1 ∧
      ("Hello",
        (allTranslatedValues
          [⟨100, "ns1", [⟨1, "k1", 10, "Hello"⟩, ⟨2, "k2", 11, "Hello"⟩]⟩]).count "Hello") ∈
        stringTableOut
          [⟨100, "ns1", [⟨1, "k1", 10, "Hello"⟩, ⟨2, "k2", 11, "Hello"⟩]⟩] ∧
      (∀ ns₁, ns₁ ∈ [⟨100, "ns1", [⟨1, "k1", 10, "Hello"⟩, ⟨2, "k2", 11, "Hello"⟩]⟩] →
        ∀ e₁, e₁ ∈ NamespaceData.entries ns₁ → e₁.translated_value = "Hello" →
        entryRecordIndex
          [⟨100, "ns1", [⟨1, "k1", 10, "Hello"⟩, ⟨2, "k2", 11, "Hello"⟩]⟩]
          e₁.translated_value = some i) :=
  locres_string_table_dedup
    [⟨100, "ns1", [⟨1, "k1", 10, "Hello"⟩, ⟨2, "k2", 11, "Hello"⟩]⟩] "Hello" (by decide)

/-! ### Skip conditions of `translate_data_with_conditions`
(3_translate_unified_json.py, lines 41-54 and 203-243) -/

/-- Character ranges of the Chinese regex in `contains_cn_or_ru`
(3_translate_unified_json.py, line 47). -/
def isChineseChar (c : Char) : Bool :=
  let v := c.toNat
  (0x4e00 ≤ v && v ≤ 0x9fff) || (0x3400 ≤ v && v ≤ 0x4dbf) ||
  (0xf900 ≤ v && v ≤ 0xfaff) || (0x20000 ≤ v && v ≤ 0x2A6DF) ||
  (0x2A700 ≤ v && v ≤ 0x2B73F) || (0x2B740 ≤ v && v ≤ 0x2B81F) ||
  (0x2B820 ≤ v && v ≤ 0x2CEAF) || (0x2CEB0 ≤ v && v ≤ 0x2EBEF) ||
  (0x2EBF0 ≤ v && v ≤ 0x2EE5F) || (0x30000 ≤ v && v ≤ 0x3134F) ||
  (0x31350 ≤ v && v ≤ 0x323AF) || (0x2F800 ≤ v && v ≤ 0x2FA1F)

/-- Character ranges of the Cyrillic regex in `contains_cn_or_ru`
(3_translate_unified_json.py, line 49). -/
def isCyrillicChar (c : Char) : Bool :=
  let v := c.toNat
  (0x0400 ≤ v && v ≤ 0x04FF) || (0x0500 ≤ v && v ≤ 0x052F) ||
  (0x2DE0 ≤ v && v ≤ 0x2DFF) || (0xA640 ≤ v && v ≤ 0xA69F)

/-- `contains_cn_or_ru` from `3_translate_unified_json.py` (lines 41-54):
`re.search` of a character class succeeds iff some character of the string is
in the class. -/
def contains_cn_or_ru (text : String) : Bool :=
  text.data.any (fun c => isChineseChar c || isCyrillicChar c)

/-- The per-entry body of the main loop of `translate_data_with_conditions`
(3_translate_unified_json.py, lines 209-243), for a string value.
`nsDict` is `translation_map.get(namespace)` (an association list models the
per-namespace dict), and `resolver` abstracts
`find_existing_translation_elsewhere` (first component of its result).
Returns the output value together with whether the entry was recorded in the
untranslated excerpt. -/
def translateEntryValue (nsDict : Option (List (String × String)))
    (resolver : String → Option String) (value : String) : String × Bool :=
  if containsSub value.data ".data".data || containsSub value.data "Texture2D".data then
    (value, false)
  else if ¬ contains_cn_or_ru value then
    (value, false)
  else
    let fromMap : Option String :=
      match nsDict with
      | none => none
      | some d => (lookupAssoc d value)
    match fromMap with
    | some t =>
      if t ≠ "" then (t, false)
      else fallbackStep resolver value
    | none => fallbackStep resolver value
where
  /-- Association-list lookup modelling `dict.get`. -/
  lookupAssoc : List (String × String) → String → Option String
    | [], _ => none
    | (k, t) :: rest, v => if k = v then some t else lookupAssoc rest v
  /-- The `find_existing_translation_elsewhere` fallback branch: a truthy
  (non-empty) result is used, otherwise the entry is recorded untranslated. -/
  fallbackStep (resolver : String → Option String) (value : String) : String × Bool :=
    match resolver value with
    | some r => if r ≠ "" then (r, false) else (value, true)
    | none => (value, true)

/-- C9: any entry whose string value contains ".data" or "Texture2D", or
contains neither Chinese nor Cyrillic characters, passes through the
translation stage unchanged and is not recorded in the untranslated
excerpt. -/
theorem translate_skips_data_and_non_cn_ru (nsDict : Option (List (String × String)))
    (resolver : String → Option String) (value : String)
    (h : containsSub value.data ".data".data = true ∨
         containsSub value.data "Texture2D".data = true ∨
         contains_cn_or_ru value = false) :
    translateEntryValue nsDict resolver value = (value, false) := by
  unfold translateEntryValue
  rcases h with h | h | h
  · rw [if_pos]
    rw [h]
    simp
  · rw [if_pos]
    rw [h]
    simp
  · by_cases hd : containsSub value.data ".data".data || containsSub value.data "Texture2D".data
    · rw [if_pos hd]
    · rw [if_neg hd, if_pos]
      simp [h]

/-- Witness for C9 on three concrete inputs exercising each disjunct. -/
theorem translate_skips_data_and_non_cn_ru_witness :
    translateEntryValue (some [("Icon.data", "X")]) (fun _ => some "Y") "Icon.data" =
      ("Icon.data", false) ∧
    translateEntryValue none (fun _ => some "Y") "Texture2D_07" = ("Texture2D_07", false) ∧
    translateEntryValue none (fun _ => some "Y") "plain ascii" = ("plain ascii", false) :=
  ⟨translate_skips_data_and_non_cn_ru _ _ _ (Or.inl (by decide)),
   translate_skips_data_and_non_cn_ru _ _ _ (Or.inr (Or.inl (by decide))),
   translate_skips_data_and_non_cn_ru _ _ _ (Or.inr (Or.inr (by decide)))⟩

/-! ### Translation resolver (3_translate_unified_json.py, lines 56-181)

`re`-based helpers are embedded as explicit scanners over `List Char`:
the numeric-token pattern `[\d]+(?:\.[\d]+)?%?` becomes a leftmost-greedy
lexer, and the `\b`-delimited one-shot `re.sub` becomes a first-occurrence
substitution guarded by word-boundary tests. -/

/-- Python whitespace characters stripped by `str.strip()` (the ASCII ones;
the exotic Unicode space characters never occur in this pipeline's data). -/
def isPySpace (c : Char) : Bool :=
  c = ' ' || c = '\t' || c = '\n' || c = '\r' || c = '\x0b' || c = '\x0c'

/-- Python `str.strip()`. -/
def pyStrip (l : List Char) : List Char :=
  ((l.dropWhile isPySpace).reverse.dropWhile isPySpace).reverse

/-- Collapse every run of two or more `'\n'` into a single `'\n'`
(`re.sub(r'\n{2,}', '\n', ...)`). -/
def collapseNewlines : List Char → List Char
  | [] => []
  | [c] => [c]
  | c :: c2 :: rest =>
    if c = '\n' ∧ c2 = '\n' then collapseNewlines (c2 :: rest)
    else c :: collapseNewlines (c2 :: rest)

/-- `normalize_text_for_pattern_key` from `3_translate_unified_json.py`
(lines 63-72): normalize line endings to `'\n'`, delete the boilerplate tag
`<RTP_Default></>`, collapse repeated newlines, strip. -/
def normalize_text_for_pattern_key (text : String) : String :=
  let normalized_newlines := replaceAll ['\r'] ['\n'] (replaceAll ['\r', '\n'] ['\n'] text.data)
  let text_without_rtp_tag := replaceAll "<RTP_Default></>".data [] normalized_newlines
  let collapsed_newlines := collapseNewlines text_without_rtp_tag
  String.mk (pyStrip collapsed_newlines)

/-- Longest run of ASCII digits at the head of the list, and the rest. -/
def spanDigits : List Char → List Char × List Char
  | [] => ([], [])
  | c :: rest =>
    if c.isDigit then
      let pr := spanDigits rest
      (c :: pr.1, pr.2)
    else ([], c :: rest)

theorem spanDigits_rest_le (l : List Char) : (spanDigits l).2.length ≤ l.length := by
  induction l with
  | nil => simp [spanDigits]
  | cons c rest ih =>
    simp only [spanDigits]
    by_cases hc : c.isDigit
    · simp only [if_pos hc]
      simp only [List.length_cons]
      omega
    · simp [if_neg hc]

/-- The optional fractional part `(?:\.[\d]+)?` of the numeric-token regex:
consumed characters (empty when the group does not match) and the rest. -/
def fracPart : List Char → List Char × List Char
  | '.' :: d2 :: rest2 =>
    if d2.isDigit then ('.' :: d2 :: (spanDigits rest2).1, (spanDigits rest2).2)
    else ([], '.' :: d2 :: rest2)
  | l => ([], l)

/-- The optional `%?` of the numeric-token regex. -/
def pctPart : List Char → List Char × List Char
  | '%' :: rest => (['%'], rest)
  | l => ([], l)

theorem fracPart_parts_le (l : List Char) :
    (fracPart l).2.length ≤ l.length ∧
    ((fracPart l).1 ≠ [] → (fracPart l).2.length + 2 ≤ l.length) := by
  match l with
  | [] => simp [fracPart]
  | [c] =>
    by_cases hc : c = '.' <;> simp [fracPart, hc]
  | c :: d2 :: rest2 =>
    by_cases hc : c = '.'
    · subst hc
      by_cases hd : d2.isDigit
      · have := spanDigits_rest_le rest2
        simp only [fracPart, if_pos hd]
        constructor
        · simp only [List.length_cons]; omega
        · intro _; simp only [List.length_cons]; omega
      · simp [fracPart, hd]
    · simp [fracPart, hc]

theorem pctPart_parts_le (l : List Char) :
    (pctPart l).2.length ≤ l.length ∧
    ((pctPart l).1 ≠ [] → (pctPart l).2.length + 1 ≤ l.length) := by
  match l with
  | [] => simp [pctPart]
  | c :: rest =>
    by_cases hc : c = '%'
    · subst hc; simp [pctPart]
    · simp [pctPart, hc]

/-- Greedy match of one numeric token `[\d]+(?:\.[\d]+)?%?` whose first digit
is `c`; returns the token and the unconsumed rest. -/
def numToken (c : Char) (rest : List Char) : List Char × List Char :=
  let intPart := c :: (spanDigits rest).1
  let fr := fracPart (spanDigits rest).2
  let pc := pctPart fr.2
  (intPart ++ fr.1 ++ pc.1, pc.2)

theorem numToken_rest_le (c : Char) (rest : List Char) :
    (numToken c rest).2.length ≤ rest.length := by
  unfold numToken
  have h1 := spanDigits_rest_le rest
  have h2 := (fracPart_parts_le (spanDigits rest).2).1
  have h3 := (pctPart_parts_le (fracPart (spanDigits rest).2).2).1
  simp only []
  omega

theorem numToken_rest_lt (c : Char) (rest : List Char) :
    (numToken c rest).2.length < (c :: rest).length := by
  have := numToken_rest_le c rest
  simp only [List.length_cons]
  omega

/-- The numeric-token scanner: `(numScan s).1` is `re.findall` of
`[\d]+(?:\.[\d]+)?%?` over `s`, and `(numScan s).2` is `re.sub` of the same
pattern by the placeholder `"{}"` over `s`. -/
def numScan : List Char → List (List Char) × List Char
  | [] => ([], [])
  | c :: rest =>
    if c.isDigit then
      let tr := numToken c rest
      let pr := numScan tr.2
      (tr.1 :: pr.1, Char.ofNat 123 :: Char.ofNat 125 :: pr.2)
    else
      let pr := numScan rest
      (pr.1, c :: pr.2)
termination_by s => s.length
decreasing_by
  · exact numToken_rest_lt _ _
  · simp

/-- `extract_number_pattern` from `3_translate_unified_json.py` (lines 74-87):
numbers are found in the raw text, the pattern key is the
placeholder-masked, `normalize_text_for_pattern_key`-normalized text. -/
def extract_number_pattern (original_text : String) : String × List String :=
  let text_for_pattern_key := normalize_text_for_pattern_key original_text
  let numbers := (numScan original_text.data).1.map String.mk
  let pattern_key_generated := String.mk (numScan text_for_pattern_key.data).2
  (pattern_key_generated, numbers)

/-- Word characters of `re`'s `\w` for the character classes that occur in
this pipeline: ASCII alphanumerics, underscore, CJK ideographs, Cyrillic. -/
def isWordChar (c : Char) : Bool :=
  c.isAlphanum || c = '_' || isChineseChar c || isCyrillicChar c

/-- Word-ness of an optional character (string edges count as non-word). -/
def isWordOpt : Option Char → Bool
  | none => false
  | some c => isWordChar c

/-- First-occurrence `\b old \b → new` substitution:
scan left to right; at the first position where `old` matches and both ends
sit on `\b` word boundaries, splice in `new`.  Returns the new text and
whether a replacement happened.  (`re.sub(rf'\b{re.escape(old)}\b', new,
text, count=1)` for the numeric tokens `old` of this pipeline.) -/
def substWordFirstAux (old new : List Char) : Option Char → List Char → List Char × Bool
  | _, [] => ([], false)
  | prev, c :: rest =>
    if isPrefixL old (c :: rest) &&
       (isWordOpt prev != isWordOpt (some c)) &&
       (isWordOpt old.getLast? != isWordOpt ((c :: rest).drop old.length).head?) then
      (new ++ (c :: rest).drop old.length, true)
    else
      let pr := substWordFirstAux old new (some c) rest
      (c :: pr.1, pr.2)

/-- Top-level one-shot word-bounded substitution (numeric tokens are never
empty, so the empty-pattern case cannot arise at call sites). -/
def substWordFirst (old new text : List Char) : List Char :=
  if old = [] then text else (substWordFirstAux old new none text).1

/-- `replace_numbers_in_translation` from `3_translate_unified_json.py`
(lines 102-117): if the masked templates of the requested source and the
candidate source coincide and the three token counts agree, substitute each
candidate-translation token by the corresponding requested token, in order,
each via a one-shot word-bounded `re.sub`. -/
def replace_numbers_in_translation
    (original_chinese template_chinese template_translation : String) : Option String :=
  let op := extract_number_pattern original_chinese
  let tp := extract_number_pattern template_chinese
  let rp := extract_number_pattern template_translation
  if op.1 ≠ tp.1 then none
  else if op.2.length ≠ tp.2.length ∨ op.2.length ≠ rp.2.length then none
  else
    some (String.mk ((List.zip rp.2 op.2).foldl
      (fun acc p => substWordFirst p.1.data p.2.data acc) template_translation.data))

/-- Generic association-list lookup (Python `dict` access / `in` test). -/
def lookupA {α : Type} : List (String × α) → String → Option α
  | [], _ => none
  | (k, v) :: rest, q => if k = q then some v else lookupA rest q

/-- The translation index built by `build_translation_index`
(3_translate_unified_json.py, lines 119-138): an exact map keyed by
normalized source strings and a pattern map keyed by masked templates, each
template mapping to its candidate `(source, translation, namespace)`
triples in insertion order. -/
structure TranslationIndex where
  exact : List (String × String)
  pattern : List (String × List (String × String × String))

/-- The candidate loop of the pattern-match step: return the first truthy
(non-`None`, non-empty) adapted translation. -/
def firstAdapted (s : String) : List (String × String × String) → Option String
  | [] => none
  | (map_chinese_key, map_translation_template, _) :: rest =>
    match replace_numbers_in_translation s map_chinese_key map_translation_template with
    | some adapted => if adapted ≠ "" then some adapted else firstAdapted s rest
    | none => firstAdapted s rest

/-- The pattern-match step of `find_existing_translation_elsewhere`
(3_translate_unified_json.py, lines 158-163). -/
def find_pattern_translation (idx : TranslationIndex) (s : String) : Option String :=
  let ep := extract_number_pattern s
  if ep.1 ≠ "" ∧ ep.2 ≠ [] then
    match lookupA idx.pattern ep.1 with
    | some cands => firstAdapted s cands
    | none => none
  else none

/-- One script-variant attempt of step 3 (3_translate_unified_json.py,
lines 166-178): for a converted variant differing from the input, try the
exact index on its normalized form, then the pattern index on its masked
template (note the guard reuses the input's numbers, and the adaptation is
computed against the original input `s`, exactly as in the source). -/
def stVariantFind (idx : TranslationIndex) (s : String) (input_numbers : List String)
    (v : String) : Option (String × String) :=
  if v ≠ s then
    match lookupA idx.exact (normalize_text_for_pattern_key v) with
    | some t => some (t, "st_exact_fully_normalized")
    | none =>
      let cp := extract_number_pattern v
      if cp.1 ≠ "" ∧ input_numbers ≠ [] then
        match lookupA idx.pattern cp.1 with
        | some cands => (firstAdapted s cands).map
            (fun t => (t, "st_pattern_fully_normalized_pattern"))
        | none => none
      else none
  else none

/-- The uncached resolution procedure of
`find_existing_translation_elsewhere` (3_translate_unified_json.py,
lines 153-181): exact lookup on the normalized input, then pattern match,
then the Traditional and Simplified conversions (OpenCC is an external
library, modelled by the parameter `conv`, returning the pair
`(traditional, simplified)`). -/
def resolveBody (conv : String → String × String) (idx : TranslationIndex)
    (s : String) : Option (String × String) :=
  match lookupA idx.exact (normalize_text_for_pattern_key s) with
  | some t => some (t, "exact_global_fully_normalized")
  | none =>
    match find_pattern_translation idx s with
    | some t => some (t, "pattern_original_fully_normalized_pattern")
    | none =>
      let input_numbers := (extract_number_pattern s).2
      match stVariantFind idx s input_numbers (conv s).1 with
      | some r => some r
      | none => stVariantFind idx s input_numbers (conv s).2

/-- The session cache `SESSION_CROSS_NAMESPACE_TRANSLATIONS_CACHE`, holding
both successes and failures (`(None, None)` is modelled as `none`). -/
abbrev SessionCache := List (String × Option (String × String))

/-- `find_existing_translation_elsewhere` (3_translate_unified_json.py,
lines 140-181) as a state transformer on the session cache: empty inputs
short-circuit; cached inputs return the cached result; otherwise the full
resolution runs once and the result — success or failure — is cached.  The
third component counts how many times the full resolution procedure ran in
the call (0 or 1), instrumenting the claim "computed only once". -/
def find_existing_translation_elsewhere (conv : String → String × String)
    (idx : TranslationIndex) (cache : SessionCache) (chinese_text_to_find : String) :
    Option (String × String) × SessionCache × Nat :=
  if chinese_text_to_find = "" then (none, cache, 0)
  else
    match lookupA cache chinese_text_to_find with
    | some r => (r, cache, 0)
    | none =>
      let r := resolveBody conv idx chinese_text_to_find
      (r, cache ++ [(chinese_text_to_find, r)], 1)

/-- A run's sequence of resolver invocations, threading the session cache. -/
def runQueries (conv : String → String × String) (idx : TranslationIndex) :
    List String → SessionCache → SessionCache
  | [], c => c
  | q :: qs, c =>
    runQueries conv idx qs (find_existing_translation_elsewhere conv idx c q).2.1

/-- How many times the full resolution procedure runs for the string `s`
during a sequence of resolver invocations. -/
def runCountFor (conv : String → String × String) (idx : TranslationIndex)
    (s : String) : List String → SessionCache → Nat
  | [], _ => 0
  | q :: qs, c =>
    (if q = s then (find_existing_translation_elsewhere conv idx c q).2.2 else 0) +
      runCountFor conv idx s qs (find_existing_translation_elsewhere conv idx c q).2.1

theorem lookupA_mem {α : Type} (c : List (String × α)) (k : String) (v : α)
    (h : lookupA c k = some v) : (k, v) ∈ c := by
  induction c with
  | nil => simp [lookupA] at h
  | cons e rest ih =>
    obtain ⟨k2, v2⟩ := e
    by_cases hk : k2 = k
    · subst hk
      simp [lookupA] at h
      subst h
      exact List.mem_cons_self _ _
    · simp only [lookupA, if_neg hk] at h
      exact List.mem_cons_of_mem _ (ih h)

theorem lookupA_append_some {α : Type} (c d : List (String × α)) (k : String) (v : α)
    (h : lookupA c k = some v) : lookupA (c ++ d) k = some v := by
  induction c with
  | nil => simp [lookupA] at h
  | cons e rest ih =>
    obtain ⟨k2, v2⟩ := e
    by_cases hk : k2 = k
    · subst hk
      simp [lookupA] at h
      simp [lookupA, h]
    · simp only [lookupA, if_neg hk] at h ⊢
      exact ih h

theorem lookupA_append_none {α : Type} (c d : List (String × α)) (k : String)
    (h : lookupA c k = none) : lookupA (c ++ d) k = lookupA d k := by
  induction c with
  | nil => simp
  | cons e rest ih =>
    obtain ⟨k2, v2⟩ := e
    by_cases hk : k2 = k
    · subst hk
      simp [lookupA] at h
    · simp only [lookupA, if_neg hk] at h
      simp only [List.cons_append, lookupA, if_neg hk]
      exact ih h

/-- A session cache is faithful when every stored result is the result of the
full resolution procedure on its key. -/
def CacheFaithful (conv : String → String × String) (idx : TranslationIndex)
    (c : SessionCache) : Prop :=
  ∀ k v, (k, v) ∈ c → v = resolveBody conv idx k

theorem find_preserves_faithful (conv : String → String × String)
    (idx : TranslationIndex) (c : SessionCache) (s : String)
    (h : CacheFaithful conv idx c) :
    CacheFaithful conv idx (find_existing_translation_elsewhere conv idx c s).2.1 := by
  unfold find_existing_translation_elsewhere
  by_cases hs : s = ""
  · rw [if_pos hs]; exact h
  · rw [if_neg hs]
    cases hl : lookupA c s with
    | some r => exact h
    | none =>
      intro k v hkv
      simp only [List.mem_append, List.mem_singleton] at hkv
      rcases hkv with hkv | hkv
      · exact h k v hkv
      · obtain ⟨hk, hv⟩ := Prod.mk.injEq .. ▸ hkv
        rw [Prod.mk.injEq] at hkv
        rw [hkv.2, hkv.1]

theorem find_result_of_faithful (conv : String → String × String)
    (idx : TranslationIndex) (c : SessionCache) (s : String)
    (h : CacheFaithful conv idx c) :
    (find_existing_translation_elsewhere conv idx c s).1 =
      if s = "" then none else resolveBody conv idx s := by
  unfold find_existing_translation_elsewhere
  by_cases hs : s = ""
  · rw [if_pos hs, if_pos hs]
  · rw [if_neg hs, if_neg hs]
    cases hl : lookupA c s with
    | some r => exact h s r (lookupA_mem c s r hl)
    | none => rfl

theorem runQueries_faithful (conv : String → String × String)
    (idx : TranslationIndex) (qs : List String) :
    ∀ c, CacheFaithful conv idx c →
      CacheFaithful conv idx (runQueries conv idx qs c) := by
  induction qs with
  | nil => intro c h; exact h
  | cons q rest ih =>
    intro c h
    exact ih _ (find_preserves_faithful conv idx c q h)

theorem find_cache_keeps (conv : String → String × String)
    (idx : TranslationIndex) (c : SessionCache) (q s : String)
    (r : Option (String × String)) (h : lookupA c s = some r) :
    lookupA (find_existing_translation_elsewhere conv idx c q).2.1 s = some r := by
  unfold find_existing_translation_elsewhere
  by_cases hq : q = ""
  · rw [if_pos hq]; exact h
  · rw [if_neg hq]
    cases hl : lookupA c q with
    | some r2 => exact h
    | none => exact lookupA_append_some c _ s r h

theorem runCount_zero_of_cached (conv : String → String × String)
    (idx : TranslationIndex) (s : String) (hs : s ≠ "") (qs : List String) :
    ∀ c r, lookupA c s = some r → runCountFor conv idx s qs c = 0 := by
  induction qs with
  | nil => intro c r _; rfl
  | cons q rest ih =>
    intro c r hc
    unfold runCountFor
    have hkeep := find_cache_keeps conv idx c q s r hc
    rw [ih _ r hkeep]
    by_cases hq : q = s
    · subst hq
      unfold find_existing_translation_elsewhere
      rw [if_neg hs, hc]
      simp
    · rw [if_neg hq]

theorem runCount_le_one (conv : String → String × String)
    (idx : TranslationIndex) (s : String) (qs : List String) :
    ∀ c, runCountFor conv idx s qs c ≤ 1 := by
  induction qs with
  | nil => intro c; exact Nat.zero_le 1
  | cons q rest ih =>
    intro c
    unfold runCountFor
    by_cases hq : q = s
    · subst hq
      by_cases hs : q = ""
      · have hfind : (find_existing_translation_elsewhere conv idx c q).2.2 = 0 ∧
            (find_existing_translation_elsewhere conv idx c q).2.1 = c := by
          unfold find_existing_translation_elsewhere
          rw [if_pos hs]
          exact ⟨rfl, rfl⟩
        rw [if_pos rfl, hfind.1, hfind.2]
        simpa using ih c
      · cases hl : lookupA c q with
        | some r =>
          have hfind : (find_existing_translation_elsewhere conv idx c q).2.2 = 0 ∧
              (find_existing_translation_elsewhere conv idx c q).2.1 = c := by
            unfold find_existing_translation_elsewhere
            rw [if_neg hs, hl]
            exact ⟨rfl, rfl⟩
          rw [if_pos rfl, hfind.1, hfind.2]
          simpa using ih c
        | none =>
          have hfind : (find_existing_translation_elsewhere conv idx c q).2.2 = 1 ∧
              (find_existing_translation_elsewhere conv idx c q).2.1 =
                c ++ [(q, resolveBody conv idx q)] := by
            unfold find_existing_translation_elsewhere
            rw [if_neg hs, hl]
            exact ⟨rfl, rfl⟩
          rw [if_pos rfl, hfind.1, hfind.2]
          have hnow : lookupA (c ++ [(q, resolveBody conv idx q)]) q =
              some (resolveBody conv idx q) := by
            rw [lookupA_append_none c _ q hl]
            simp [lookupA]
          rw [runCount_zero_of_cached conv idx q hs rest _ _ hnow]
    · rw [if_neg hq]
      simpa using ih _

/-- C7: within one run (session cache starting empty, as
`translate_data_with_conditions` clears it), the fallback resolver is
deterministic and memoized: an invocation on `s` returns the same
`(translation, method)` result no matter which queries preceded it — success
and failure results alike are served from the cache — and the full
resolution procedure runs at most once per distinct `s` over any query
sequence. -/
theorem resolver_memoized_and_deterministic (conv : String → String × String)
    (idx : TranslationIndex) (s : String) (qs qs' : List String) :
    (find_existing_translation_elsewhere conv idx (runQueries conv idx qs []) s).1 =
      (find_existing_translation_elsewhere conv idx (runQueries conv idx qs' []) s).1 ∧
    runCountFor conv idx s qs [] ≤ 1 := by
  constructor
  · have hnil : CacheFaithful conv idx [] := by
      intro k v hkv
      simp at hkv
    rw [find_result_of_faithful conv idx _ s (runQueries_faithful conv idx qs [] hnil),
        find_result_of_faithful conv idx _ s (runQueries_faithful conv idx qs' [] hnil)]
  · exact runCount_le_one conv idx s qs []

set_option maxRecDepth 4096 in
/-- C4 counterexample: for the candidate source `"造成50%伤害"` mapped to
`"Deals 50% damage"` (same masked template `"造成{}伤害"`, one numeric token
each in source, template and translation), resolving `"造成60%伤害"` via the
pattern-match step returns the candidate's translation **unchanged** —
`re.sub(r'\b50\%\b', ..., count=1)` finds no match because `'%'` followed by
a space is not a `\b` word boundary — so the numeric token is *not* replaced
by the requested token, refuting the claim that each substitution replaces
exactly one occurrence. -/
theorem pattern_resolution_percent_counterexample :
    find_pattern_translation
      ⟨[], [("造成{}伤害", [("造成50%伤害", "Deals 50% damage", "g")])]⟩
      "造成60%伤害" = some "Deals 50% damage" ∧
    some ("Deals 50% damage" : String) ≠ some ("Deals 60% damage" : String) := by
  constructor
  · simp +decide [find_pattern_translation, extract_number_pattern,
      normalize_text_for_pattern_key, replaceAll, collapseNewlines, pyStrip, isPySpace,
      numScan, numToken, spanDigits, fracPart, pctPart, lookupA, firstAdapted,
      replace_numbers_in_translation, substWordFirst, substWordFirstAux, isPrefixL,
      isWordChar, isWordOpt, isChineseChar, isCyrillicChar]
  · decide

set_option maxRecDepth 4096 in
/-- C4 (amended): for a candidate whose masked template equals the requested
string's template and whose source, template and translation share the same
numeric-token count, the resolver returns the candidate's translation with
the substitutions applied in order, each substitution being a one-shot
word-boundary-delimited `re.sub` of the candidate-translation token by the
requested token (replacing the first `\b`-delimited occurrence, and leaving
the translation unchanged at that step when no such occurrence exists, e.g.
for a token ending in `%` followed by a non-word character); in particular
the spec's example — `"造成{100}点伤害" → "Deals {100} damage"` resolving
`"造成{250}点伤害"` — yields `"Deals {250} damage"`. -/
theorem pattern_resolution_word_bounded (s t tr : String)
    (hpat : (extract_number_pattern s).1 = (extract_number_pattern t).1)
    (hcnt1 : (extract_number_pattern s).2.length = (extract_number_pattern t).2.length)
    (hcnt2 : (extract_number_pattern s).2.length = (extract_number_pattern tr).2.length) :
    replace_numbers_in_translation s t tr =
      some (String.mk
        ((List.zip (extract_number_pattern tr).2 (extract_number_pattern s).2).foldl
          (fun acc p => substWordFirst p.1.data p.2.data acc) tr.data)) ∧
    find_pattern_translation
      ⟨[], [("造成{{}}点伤害", [("造成{100}点伤害", "Deals {100} damage", "g")])]⟩
      "造成{250}点伤害" = some "Deals {250} damage" := by
  constructor
  · have h1 : ¬((extract_number_pattern s).1 ≠ (extract_number_pattern t).1) :=
      fun hne => hne hpat
    have h2 : ¬((extract_number_pattern s).2.length ≠ (extract_number_pattern t).2.length ∨
        (extract_number_pattern s).2.length ≠ (extract_number_pattern tr).2.length) :=
      fun h => h.elim (fun ha => ha hcnt1) (fun hb => hb hcnt2)
    simp only [replace_numbers_in_translation]
    rw [if_neg h1, if_neg h2]
  · simp +decide [find_pattern_translation, extract_number_pattern,
      normalize_text_for_pattern_key, replaceAll, collapseNewlines, pyStrip, isPySpace,
      numScan, numToken, spanDigits, fracPart, pctPart, lookupA, firstAdapted,
      replace_numbers_in_translation, substWordFirst, substWordFirstAux, isPrefixL,
      isWordChar, isWordOpt, isChineseChar, isCyrillicChar]

set_option maxRecDepth 4096 in
/-- Witness for the amended C4 at a concrete input. -/
theorem pattern_resolution_word_bounded_witness :
    replace_numbers_in_translation "造成3点伤害" "造成7点伤害" "Deals 7 damage" =
      some (String.mk
        ((List.zip (extract_number_pattern ("Deals 7 damage" : String)).2
            (extract_number_pattern ("造成3点伤害" : String)).2).foldl
          (fun acc p => substWordFirst p.1.data p.2.data acc)
          ("Deals 7 damage" : String).data)) ∧
    find_pattern_translation
      ⟨[], [("造成{{}}点伤害", [("造成{100}点伤害", "Deals {100} damage", "g")])]⟩
      "造成{250}点伤害" = some "Deals {250} damage" :=
  pattern_resolution_word_bounded "造成3点伤害" "造成7点伤害" "Deals 7 damage"
    (by simp +decide [extract_number_pattern, normalize_text_for_pattern_key, replaceAll,
      collapseNewlines, pyStrip, isPySpace, numScan, numToken, spanDigits, fracPart,
      pctPart])
    (by simp +decide [extract_number_pattern, normalize_text_for_pattern_key, replaceAll,
      collapseNewlines, pyStrip, isPySpace, numScan, numToken, spanDigits, fracPart,
      pctPart])
    (by simp +decide [extract_number_pattern, normalize_text_for_pattern_key, replaceAll,
      collapseNewlines, pyStrip, isPySpace, numScan, numToken, spanDigits, fracPart,
      pctPart])

/-! ### Rule engine: `execute_single_string_post_processing`
(3_translate_unified_json.py, lines 297-391)

A rule carries the four Excel columns (`load_excel_rules`, lines 264-293)
plus its `__rule_id__`.  The engine walks the pre-filtered, priority-sorted
rule list; for each rule it repeatedly scans the character list left to
right, replacing unlocked, non-conflicting occurrences of the bad substring
by the good substring and locking the inserted text, until a pass makes no
further change. -/

/-- One correction rule: the four columns of the Excel sheet plus
`__rule_id__`. -/
structure Rule where
  rule_id : Nat
  simpChinese : List Char
  tradChinese : List Char
  badTranslation : List Char
  goodTranslation : List Char
deriving DecidableEq

/-- One recorded substitution (the dict appended to `rule_applications`). -/
structure RuleApplication where
  rule_id : Nat
  bad_translation : String
  good_translation : String
  position : Nat
  text_before : String
  text_after : String
  ns : String
  key : String
  original_chinese : String
deriving DecidableEq

/-- Whether a rule is active for an entry: one of its source-side substrings
occurs in the entry's original Chinese text (lines 316-317 and 343-344 use
the same test). -/
def ruleActive (r : Rule) (original_chinese : List Char) : Bool :=
  (decide (r.simpChinese ≠ []) && containsSub original_chinese r.simpChinese) ||
  (decide (r.tradChinese ≠ []) && decide (r.tradChinese ≠ r.simpChinese) &&
    containsSub original_chinese r.tradChinese)

/-- `active_good_translation_owners_map[good]` (lines 311-322): the ids of
the active rules with this non-empty good substring, in rule-list order. -/
def goodOwners (rules : List Rule) (orig : List Char) (good : List Char) : List Nat :=
  (rules.filter (fun r => ruleActive r orig && decide (r.goodTranslation ≠ []) &&
    decide (r.goodTranslation = good))).map (fun r => r.rule_id)

/-- The conflict test of lines 358-363: the scanning rule's bad substring is
owned as a good substring by a *different* active rule, and the rule is not a
self-consistent no-op (`bad ≠ good`).  The owners map is fixed during the
replacement loop, so this is constant per rule. -/
def conflictBlocked (rules : List Rule) (orig : List Char) (selfId : Nat)
    (bad good : List Char) : Bool :=
  (goodOwners rules orig bad).any (fun o => o ≠ selfId) && decide (bad ≠ good)

/-- Result of one left-to-right scan pass of a single rule. -/
structure ScanResult where
  chars : List Char
  locks : List Bool
  changed : Bool
  log : List RuleApplication

/-- One scan pass of the inner `while i <= ... - len_bad` loop
(lines 350-390) for the rule `(rid, bad = b :: bs, good)`:
at each position, on an unlocked, non-conflicting match replace the bad
substring by the good one, lock the inserted span, record the application if
the text changed, and jump past the insertion; otherwise advance one
character. -/
def scanPass (rid : Nat) (b : Char) (bs good : List Char) (blocked : Bool)
    (nsk : String × String) (orig : String) (chars : List Char) (locks : List Bool)
    (i : Nat) (changed : Bool) (log : List RuleApplication) : ScanResult :=
  if hg : i + (b :: bs).length ≤ chars.length then
    if (chars.drop i).take (b :: bs).length = b :: bs then
      if ((locks.drop i).take (b :: bs).length).any (fun x => x) then
        scanPass rid b bs good blocked nsk orig chars locks (i + 1) changed log
      else if blocked then
        scanPass rid b bs good blocked nsk orig chars locks (i + 1) changed log
      else
        scanPass rid b bs good blocked nsk orig
          (chars.take i ++ good ++ chars.drop (i + (b :: bs).length))
          (locks.take i ++ List.replicate good.length true ++
            locks.drop (i + (b :: bs).length))
          (i + good.length)
          (changed ||
            decide (chars.take i ++ good ++ chars.drop (i + (b :: bs).length) ≠ chars))
          (if chars.take i ++ good ++ chars.drop (i + (b :: bs).length) ≠ chars then
            log ++ [⟨rid, String.mk (b :: bs), String.mk good, i, String.mk chars,
              String.mk (chars.take i ++ good ++ chars.drop (i + (b :: bs).length)),
              nsk.1, nsk.2, orig⟩]
          else log)
    else
      scanPass rid b bs good blocked nsk orig chars locks (i + 1) changed log
  else
    ⟨chars, locks, changed, log⟩
termination_by chars.length + (bs.length + 1) - i
decreasing_by
  · simp only [List.length_cons] at hg
    omega
  · simp only [List.length_cons] at hg
    omega
  · simp only [List.length_cons] at hg
    simp only [List.length_append, List.length_take, List.length_drop,
      List.length_cons]
    omega
  · simp only [List.length_cons] at hg
    omega

theorem scanPass_len (rid : Nat) (b : Char) (bs good : List Char) (blocked : Bool)
    (nsk : String × String) (orig : String) :
    ∀ chars locks i changed log, locks.length = chars.length →
      (scanPass rid b bs good blocked nsk orig chars locks i changed log).locks.length =
        (scanPass rid b bs good blocked nsk orig chars locks i changed log).chars.length := by
  intro chars locks i changed log
  induction chars, locks, i, changed, log using
      scanPass.induct rid b bs good blocked nsk orig with
  | case1 chars locks i changed log hg hm hlk ih =>
    intro hlen
    rw [scanPass]
    simp only [dif_pos hg, if_pos hm, if_pos hlk]
    exact ih hlen
  | case2 chars locks i changed log hg hm hlk hb ih =>
    intro hlen
    rw [scanPass]
    simp only [dif_pos hg, if_pos hm, if_neg hlk, if_pos hb]
    exact ih hlen
  | case3 chars locks i changed log hg hm hlk hb ih =>
    intro hlen
    rw [scanPass]
    simp only [dif_pos hg, if_pos hm, if_neg hlk, if_neg hb]
    apply ih
    simp only [List.length_append, List.length_take, List.length_drop,
      List.length_replicate]
    omega
  | case4 chars locks i changed log hg hm ih =>
    intro hlen
    rw [scanPass]
    simp only [dif_pos hg, if_neg hm]
    exact ih hlen
  | case5 chars locks i changed log hg =>
    intro hlen
    rw [scanPass]
    simp only [dif_neg hg]
    exact hlen

theorem count_false_of_any_false (l : List Bool) (h : l.any (fun x => x) = false) :
    l.count false = l.length := by
  induction l with
  | nil => rfl
  | cons x rest ih =>
    simp only [List.any_cons, Bool.or_eq_false_iff] at h
    obtain ⟨hx, hrest⟩ := h
    subst hx
    simp [List.count_cons, ih hrest]

theorem count_false_split (locks : List Bool) (i n : Nat) :
    locks.count false = (locks.take i).count false +
      (((locks.drop i).take n).count false + (locks.drop (i + n)).count false) := by
  conv_lhs => rw [← List.take_append_drop i locks]
  rw [List.count_append]
  congr 1
  conv_lhs => rw [← List.take_append_drop n (locks.drop i)]
  rw [List.count_append, List.drop_drop]

/-- Every replacement locks at least one previously unlocked position, so
a scan pass never increases the number of unlocked positions, and a pass
that reports a change (starting from `changed = false`) strictly decreases
it. -/
theorem scanPass_count (rid : Nat) (b : Char) (bs good : List Char) (blocked : Bool)
    (nsk : String × String) (orig : String) :
    ∀ chars locks i changed log, locks.length = chars.length →
      (scanPass rid b bs good blocked nsk orig chars locks i changed log).locks.count false ≤
        locks.count false ∧
      ((scanPass rid b bs good blocked nsk orig chars locks i changed log).changed = true →
        changed = true ∨
        (scanPass rid b bs good blocked nsk orig chars locks i changed log).locks.count false <
          locks.count false) := by
  intro chars locks i changed log
  induction chars, locks, i, changed, log using
      scanPass.induct rid b bs good blocked nsk orig with
  | case1 chars locks i changed log hg hm hlk ih =>
    intro hlen
    rw [scanPass]
    simp only [dif_pos hg, if_pos hm, if_pos hlk]
    exact ih hlen
  | case2 chars locks i changed log hg hm hlk hb ih =>
    intro hlen
    rw [scanPass]
    simp only [dif_pos hg, if_pos hm, if_neg hlk, if_pos hb]
    exact ih hlen
  | case3 chars locks i changed log hg hm hlk hb ih =>
    intro hlen
    rw [scanPass]
    simp only [dif_pos hg, if_pos hm, if_neg hlk, if_neg hb]
    have hlen2 : (locks.take i ++ List.replicate good.length true ++
        locks.drop (i + (b :: bs).length)).length =
        (chars.take i ++ good ++ chars.drop (i + (b :: bs).length)).length := by
      simp only [List.length_append, List.length_take, List.length_drop,
        List.length_replicate]
      omega
    obtain ⟨ihle, ihch⟩ := ih hlen2
    have hmidlen : ((locks.drop i).take (b :: bs).length).length = (b :: bs).length := by
      simp only [List.length_take, List.length_drop]
      simp only [List.length_cons] at hg ⊢
      omega
    have hmidcount : ((locks.drop i).take (b :: bs).length).count false =
        (b :: bs).length := by
      rw [count_false_of_any_false _ (by
        rcases Bool.eq_false_or_eq_true (((locks.drop i).take (b :: bs).length).any
          (fun x => x)) with h | h
        · exact absurd h hlk
        · exact h)]
      exact hmidlen
    have hnewcount : (locks.take i ++ List.replicate good.length true ++
        locks.drop (i + (b :: bs).length)).count false + (b :: bs).length =
        locks.count false := by
      rw [count_false_split locks i (b :: bs).length, List.count_append,
        List.count_append, hmidcount]
      have : (List.replicate good.length true).count false = 0 := by
        rw [List.count_eq_zero]
        intro hmem
        have := List.eq_of_mem_replicate hmem
        exact Bool.noConfusion this
      omega
    have hbadpos : 0 < (b :: bs).length := by simp
    constructor
    · exact le_trans ihle (by omega)
    · intro _
      right
      exact lt_of_le_of_lt ihle (by omega)
  | case4 chars locks i changed log hg hm ih =>
    intro hlen
    rw [scanPass]
    simp only [dif_pos hg, if_neg hm]
    exact ih hlen
  | case5 chars locks i changed log hg =>
    intro hlen
    rw [scanPass]
    simp only [dif_neg hg]
    exact ⟨le_refl _, fun h => Or.inl h⟩

/-- Engine state: the mutable character list, the parallel lock mask (kept
the same length — the source maintains this invariant through its slice
assignments), and the substitution log. -/
structure EngineState where
  chars : List Char
  locks : List Bool
  log : List RuleApplication
  hlen : locks.length = chars.length

/-- The outer `while current_rule_made_a_change_in_its_passes` loop of one
rule (lines 347-390): rescan until a pass makes no change. -/
def ruleFixpoint (rid : Nat) (b : Char) (bs good : List Char) (blocked : Bool)
    (nsk : String × String) (orig : String) (chars : List Char) (locks : List Bool)
    (log : List RuleApplication) (hlen : locks.length = chars.length) : EngineState :=
  if hc : (scanPass rid b bs good blocked nsk orig chars locks 0 false log).changed = true then
    ruleFixpoint rid b bs good blocked nsk orig
      (scanPass rid b bs good blocked nsk orig chars locks 0 false log).chars
      (scanPass rid b bs good blocked nsk orig chars locks 0 false log).locks
      (scanPass rid b bs good blocked nsk orig chars locks 0 false log).log
      (scanPass_len rid b bs good blocked nsk orig chars locks 0 false log hlen)
  else
    ⟨(scanPass rid b bs good blocked nsk orig chars locks 0 false log).chars,
     (scanPass rid b bs good blocked nsk orig chars locks 0 false log).locks,
     (scanPass rid b bs good blocked nsk orig chars locks 0 false log).log,
     scanPass_len rid b bs good blocked nsk orig chars locks 0 false log hlen⟩
termination_by locks.count false
decreasing_by
  rcases (scanPass_count rid b bs good blocked nsk orig chars locks 0 false log hlen).2 hc
    with h | h
  · exact absurd h (by simp)
  · exact h

/-- Processing of one rule (lines 325-390): skip rules with an empty bad
substring (line 332) and rules whose source-side substrings do not occur in
the original Chinese text (lines 340-345); otherwise run the scan-and-replace
fixpoint with the rule's conflict flag.  (`rules` is the full pre-filtered
list, from which the owners map of the first loop was built.) -/
def applyRule (rules : List Rule) (orig : String) (nsk : String × String)
    (r : Rule) (st : EngineState) : EngineState :=
  match r.badTranslation with
  | [] => st
  | b :: bs =>
    if ruleActive r orig.data then
      ruleFixpoint r.rule_id b bs r.goodTranslation
        (conflictBlocked rules orig.data r.rule_id (b :: bs) r.goodTranslation)
        nsk orig st.chars st.locks st.log st.hlen
    else st

/-- The second loop of `execute_single_string_post_processing` (lines
325-390): process the rules in order, threading the engine state. -/
def applyRules (rules : List Rule) (orig : String) (nsk : String × String) :
    List Rule → EngineState → EngineState
  | [], st => st
  | r :: rs, st => applyRules rules orig nsk rs (applyRule rules orig nsk r st)

/-- `execute_single_string_post_processing` (lines 297-391): the corrected
string together with the log of all substitutions. -/
def execute_single_string_post_processing (original_chinese current_english : String)
    (nsk : String × String) (applicable_rules : List Rule) :
    String × List RuleApplication :=
  if applicable_rules = [] then (current_english, [])
  else
    let stf := applyRules applicable_rules original_chinese nsk applicable_rules
      ⟨current_english.data, List.replicate current_english.data.length false, [],
        by simp⟩
    (String.mk stf.chars, stf.log)

/-- `BlockAt chars locks j w`: the text `w` sits at position `j` with every
one of its positions locked. -/
def BlockAt (chars : List Char) (locks : List Bool) (j : Nat) (w : List Char) : Prop :=
  (chars.drop j).take w.length = w ∧
  (locks.drop j).take w.length = List.replicate w.length true ∧
  j + w.length ≤ chars.length

instance (chars : List Char) (locks : List Bool) (j : Nat) (w : List Char) :
    Decidable (BlockAt chars locks j w) :=
  inferInstanceAs (Decidable (_ ∧ _ ∧ _))

theorem any_false_mem (l : List Bool) (h : l.any (fun x => x) = false) :
    ∀ x ∈ l, x = false := by
  intro x hx
  rcases Bool.eq_false_or_eq_true x with h1 | h1
  · rw [h1] at hx
    have h2 : l.any (fun x => x) = true := by
      apply List.any_eq_true.mpr
      exact ⟨true, hx, rfl⟩
    rw [h] at h2
    exact Bool.noConfusion h2
  · exact h1

theorem drop_splice_left {α : Type} (l mid : List α) (i badLen j n : Nat)
    (hil : i ≤ l.length) (hj : j + n ≤ i) :
    ((l.take i ++ mid ++ l.drop (i + badLen)).drop j).take n = (l.drop j).take n := by
  rw [List.append_assoc, List.drop_append_eq_append_drop]
  have hlt : (l.take i).length = i := by
    rw [List.length_take]
    omega
  rw [List.take_append_of_le_length (by rw [List.length_drop, hlt]; omega)]
  rw [List.drop_take, List.take_take]
  congr 1
  omega

theorem drop_splice_right {α : Type} (l mid : List α) (i badLen j : Nat)
    (hil : i ≤ l.length) (hj : i + badLen ≤ j) :
    (l.take i ++ mid ++ l.drop (i + badLen)).drop (i + mid.length + (j - (i + badLen))) =
      l.drop j := by
  rw [List.drop_append_eq_append_drop]
  have hlt : (l.take i ++ mid).length = i + mid.length := by
    rw [List.length_append, List.length_take]
    omega
  rw [List.drop_eq_nil_of_le (by rw [hlt]; omega)]
  rw [List.nil_append, hlt]
  have : i + mid.length + (j - (i + badLen)) - (i + mid.length) = j - (i + badLen) := by
    omega
  rw [this, List.drop_drop]
  congr 1
  omega

/-- A replacement on a fully unlocked span preserves every locked block
(possibly shifted). -/
theorem blockAt_splice (chars : List Char) (locks : List Bool) (i badLen : Nat)
    (good : List Char) (j : Nat) (w : List Char)
    (hlen : locks.length = chars.length)
    (hbadpos : 0 < badLen)
    (hbound : i + badLen ≤ chars.length)
    (hseg : ((locks.drop i).take badLen).any (fun x => x) = false)
    (hb : BlockAt chars locks j w) :
    ∃ j', BlockAt (chars.take i ++ good ++ chars.drop (i + badLen))
      (locks.take i ++ List.replicate good.length true ++ locks.drop (i + badLen))
      j' w := by
  by_cases hw : w = []
  · subst hw
    exact ⟨0, by simp [BlockAt]⟩
  obtain ⟨hcw, hlw, hjb⟩ := hb
  have hwpos : 0 < w.length := List.length_pos.mpr hw
  have hil : i ≤ chars.length := by omega
  have hill : i ≤ locks.length := by omega
  have hdisj : j + w.length ≤ i ∨ i + badLen ≤ j := by
    by_contra hcon
    push_neg at hcon
    obtain ⟨h1, h2⟩ := hcon
    have hpj : j ≤ max i j := le_max_right _ _
    have hpi : i ≤ max i j := le_max_left _ _
    have hplt1 : max i j < j + w.length := max_lt (by omega) (by omega)
    have hplt2 : max i j < i + badLen := max_lt (by omega) (by omega)
    have htrue : locks.get? (max i j) = some true := by
      have h3 : ((locks.drop j).take w.length).get? (max i j - j) = some true := by
        rw [hlw]
        simp only [List.get?_eq_getElem?, List.getElem?_replicate]
        rw [if_pos (by omega)]
      rw [List.get?_take (by omega), List.get?_drop] at h3
      rw [← h3]
      congr 1
      omega
    have hfalse : locks.get? (max i j) = some false := by
      have h4 : ((locks.drop i).take badLen).get? (max i j - i) = locks.get? (max i j) := by
        rw [List.get?_take (by omega), List.get?_drop]
        congr 1
        omega
      cases h5 : ((locks.drop i).take badLen).get? (max i j - i) with
      | none =>
        rw [h5] at h4
        have hlenp : max i j < locks.length := by omega
        rw [List.get?_eq_getElem?] at h4
        rw [List.getElem?_eq_getElem hlenp] at h4
        exact Option.noConfusion h4
      | some x =>
        have hx := any_false_mem _ hseg x (List.get?_mem h5)
        rw [h5] at h4
        rw [← h4, hx]
    rw [htrue] at hfalse
    exact Bool.noConfusion (Option.some.inj hfalse)
  rcases hdisj with hle | hge
  · refine ⟨j, ?_, ?_, ?_⟩
    · rw [drop_splice_left chars good i badLen j w.length hil (by omega)]
      exact hcw
    · rw [drop_splice_left locks (List.replicate good.length true) i badLen j w.length
        hill (by omega)]
      exact hlw
    · simp only [List.length_append, List.length_take, List.length_drop]
      omega
  · refine ⟨i + good.length + (j - (i + badLen)), ?_, ?_, ?_⟩
    · have hrw := drop_splice_right chars good i badLen j hil hge
      rw [hrw, hcw]
    · have hrw := drop_splice_right locks (List.replicate good.length true) i badLen j
        hill hge
      rw [List.length_replicate] at hrw
      rw [hrw, hlw]
    · simp only [List.length_append, List.length_take, List.length_drop]
      omega

/-- A locked block decomposes the text around it. -/
theorem blockAt_decomp (chars : List Char) (locks : List Bool) (j : Nat) (w : List Char)
    (hb : BlockAt chars locks j w) :
    chars = chars.take j ++ w ++ chars.drop (j + w.length) := by
  obtain ⟨hcw, _, hjb⟩ := hb
  conv_lhs => rw [← List.take_append_drop j chars]
  rw [List.append_assoc]
  congr 1
  conv_lhs => rw [← List.take_append_drop w.length (chars.drop j)]
  rw [hcw, List.drop_drop]

/-- A scan pass never rewrites a locked block: every locked block persists
(possibly shifted) through the pass. -/
theorem scanPass_block (rid : Nat) (b : Char) (bs good : List Char) (blocked : Bool)
    (nsk : String × String) (orig : String) :
    ∀ chars locks i changed log, locks.length = chars.length →
      ∀ j w, BlockAt chars locks j w →
      ∃ j', BlockAt (scanPass rid b bs good blocked nsk orig chars locks i changed log).chars
        (scanPass rid b bs good blocked nsk orig chars locks i changed log).locks j' w := by
  intro chars locks i changed log
  induction chars, locks, i, changed, log using
      scanPass.induct rid b bs good blocked nsk orig with
  | case1 chars locks i changed log hg hm hlk ih =>
    intro hlen j w hb
    rw [scanPass]
    simp only [dif_pos hg, if_pos hm, if_pos hlk]
    exact ih hlen j w hb
  | case2 chars locks i changed log hg hm hlk hbl ih =>
    intro hlen j w hb
    rw [scanPass]
    simp only [dif_pos hg, if_pos hm, if_neg hlk, if_pos hbl]
    exact ih hlen j w hb
  | case3 chars locks i changed log hg hm hlk hbl ih =>
    intro hlen j w hb
    rw [scanPass]
    simp only [dif_pos hg, if_pos hm, if_neg hlk, if_neg hbl]
    have hlen2 : (locks.take i ++ List.replicate good.length true ++
        locks.drop (i + (b :: bs).length)).length =
        (chars.take i ++ good ++ chars.drop (i + (b :: bs).length)).length := by
      simp only [List.length_append, List.length_take, List.length_drop,
        List.length_replicate]
      omega
    have hseg : ((locks.drop i).take (b :: bs).length).any (fun x => x) = false := by
      rcases Bool.eq_false_or_eq_true (((locks.drop i).take (b :: bs).length).any
        (fun x => x)) with h | h
      · exact absurd h hlk
      · exact h
    obtain ⟨j2, hb2⟩ := blockAt_splice chars locks i (b :: bs).length good j w hlen
      (by simp) hg hseg hb
    exact ih hlen2 j2 w hb2
  | case4 chars locks i changed log hg hm ih =>
    intro hlen j w hb
    rw [scanPass]
    simp only [dif_pos hg, if_neg hm]
    exact ih hlen j w hb
  | case5 chars locks i changed log hg =>
    intro hlen j w hb
    rw [scanPass]
    simp only [dif_neg hg]
    exact ⟨j, hb⟩

/-- A rule whose conflict flag is set performs no replacement at all: the
scan pass returns its state unchanged. -/
theorem scanPass_inert (rid : Nat) (b : Char) (bs good : List Char)
    (nsk : String × String) (orig : String) :
    ∀ chars locks i changed log,
      scanPass rid b bs good true nsk orig chars locks i changed log =
        ⟨chars, locks, changed, log⟩ := by
  intro chars locks i changed log
  induction chars, locks, i, changed, log using
      scanPass.induct rid b bs good true nsk orig with
  | case1 chars locks i changed log hg hm hlk ih =>
    rw [scanPass]
    simp only [dif_pos hg, if_pos hm, if_pos hlk]
    exact ih
  | case2 chars locks i changed log hg hm hlk hbl ih =>
    rw [scanPass]
    simp only [dif_pos hg, if_pos hm, if_neg hlk, if_pos hbl]
    exact ih
  | case3 chars locks i changed log hg hm hlk hbl ih =>
    exact absurd rfl hbl
  | case4 chars locks i changed log hg hm ih =>
    rw [scanPass]
    simp only [dif_pos hg, if_neg hm]
    exact ih
  | case5 chars locks i changed log hg =>
    rw [scanPass]
    simp only [dif_neg hg]

/-- On a fully unlocked state, a non-conflicting rule whose bad substring
occurs at or after the scan position fires: the pass output contains the good
substring as a locked block. -/
theorem scanPass_fires (rid : Nat) (b : Char) (bs good : List Char) (blocked : Bool)
    (nsk : String × String) (orig : String) (hbl : blocked = false) :
    ∀ chars locks i changed log, locks.length = chars.length →
      locks.any (fun x => x) = false →
      (∃ q, i ≤ q ∧ q + (b :: bs).length ≤ chars.length ∧
        (chars.drop q).take (b :: bs).length = b :: bs) →
      ∃ j', BlockAt (scanPass rid b bs good blocked nsk orig chars locks i changed log).chars
        (scanPass rid b bs good blocked nsk orig chars locks i changed log).locks
        j' good := by
  intro chars locks i changed log
  induction chars, locks, i, changed, log using
      scanPass.induct rid b bs good blocked nsk orig with
  | case1 chars locks i changed log hg hm hlk ih =>
    intro hlen hall hocc
    exfalso
    have hseg : ((locks.drop i).take (b :: bs).length).any (fun x => x) = false := by
      rcases Bool.eq_false_or_eq_true (((locks.drop i).take (b :: bs).length).any
        (fun x => x)) with h | h
      · obtain ⟨x, hx, hpx⟩ := List.any_eq_true.mp h
        have hxl : x ∈ locks := List.mem_of_mem_drop (List.mem_of_mem_take hx)
        have := any_false_mem locks hall x hxl
        rw [this] at hpx
        exact Bool.noConfusion hpx
      · exact h
    rw [hseg] at hlk
    exact Bool.noConfusion hlk
  | case2 chars locks i changed log hg hm hlk hbl2 ih =>
    rw [hbl] at hbl2
    exact absurd hbl2 (by simp)
  | case3 chars locks i changed log hg hm hlk hbl2 ih =>
    intro hlen hall hocc
    rw [scanPass]
    simp only [dif_pos hg, if_pos hm, if_neg hlk, if_neg hbl2]
    have hlen2 : (locks.take i ++ List.replicate good.length true ++
        locks.drop (i + (b :: bs).length)).length =
        (chars.take i ++ good ++ chars.drop (i + (b :: bs).length)).length := by
      simp only [List.length_append, List.length_take, List.length_drop,
        List.length_replicate]
      omega
    have hil : i ≤ chars.length := by
      simp only [List.length_cons] at hg
      omega
    have hblock : BlockAt (chars.take i ++ good ++ chars.drop (i + (b :: bs).length))
        (locks.take i ++ List.replicate good.length true ++
          locks.drop (i + (b :: bs).length)) i good := by
      refine ⟨?_, ?_, ?_⟩
      · rw [List.append_assoc, List.drop_append_eq_append_drop]
        have hlt : (chars.take i).length = i := by
          rw [List.length_take]; omega
        rw [List.drop_eq_nil_of_le (by omega), List.nil_append, hlt, Nat.sub_self,
          List.drop_zero, List.take_append_of_le_length (le_refl _), List.take_all_of_le
          (le_refl _)]
      · rw [List.append_assoc, List.drop_append_eq_append_drop]
        have hlt : (locks.take i).length = i := by
          rw [List.length_take]; omega
        rw [List.drop_eq_nil_of_le (by omega), List.nil_append, hlt, Nat.sub_self,
          List.drop_zero,
          List.take_append_of_le_length (by rw [List.length_replicate]),
          List.take_all_of_le (by rw [List.length_replicate])]
      · simp only [List.length_append, List.length_take, List.length_drop]
        omega
    exact scanPass_block rid b bs good blocked nsk orig _ _ _ _ _ hlen2 i good hblock
  | case4 chars locks i changed log hg hm ih =>
    intro hlen hall hocc
    rw [scanPass]
    simp only [dif_pos hg, if_neg hm]
    obtain ⟨q, hq1, hq2, hq3⟩ := hocc
    have hqi : q ≠ i := by
      intro hqi
      subst hqi
      exact hm hq3
    exact ih hlen hall ⟨q, by omega, hq2, hq3⟩
  | case5 chars locks i changed log hg =>
    intro hlen hall hocc
    exfalso
    obtain ⟨q, hq1, hq2, hq3⟩ := hocc
    exact hg (by omega)

theorem ruleFixpoint_block (rid : Nat) (b : Char) (bs good : List Char) (blocked : Bool)
    (nsk : String × String) (orig : String) :
    ∀ chars locks log hlen j w, BlockAt chars locks j w →
      ∃ j', BlockAt (ruleFixpoint rid b bs good blocked nsk orig chars locks log hlen).chars
        (ruleFixpoint rid b bs good blocked nsk orig chars locks log hlen).locks j' w := by
  intro chars locks log hlen
  induction chars, locks, log, hlen using
      ruleFixpoint.induct rid b bs good blocked nsk orig with
  | case1 chars locks log hlen hc ih =>
    intro j w hb
    rw [ruleFixpoint]
    simp only [dif_pos hc]
    obtain ⟨j2, hb2⟩ := scanPass_block rid b bs good blocked nsk orig chars locks 0
      false log hlen j w hb
    exact ih j2 w hb2
  | case2 chars locks log hlen hc =>
    intro j w hb
    rw [ruleFixpoint]
    simp only [dif_neg hc]
    exact scanPass_block rid b bs good blocked nsk orig chars locks 0 false log hlen j w hb

theorem ruleFixpoint_inert (rid : Nat) (b : Char) (bs good : List Char)
    (nsk : String × String) (orig : String) (chars : List Char) (locks : List Bool)
    (log : List RuleApplication) (hlen : locks.length = chars.length) :
    (ruleFixpoint rid b bs good true nsk orig chars locks log hlen).chars = chars ∧
    (ruleFixpoint rid b bs good true nsk orig chars locks log hlen).locks = locks ∧
    (ruleFixpoint rid b bs good true nsk orig chars locks log hlen).log = log := by
  have hin := scanPass_inert rid b bs good nsk orig chars locks 0 false log
  rw [ruleFixpoint]
  split
  · rename_i hc
    rw [hin] at hc
    exact absurd hc (by simp)
  · exact ⟨congrArg ScanResult.chars hin, congrArg ScanResult.locks hin,
      congrArg ScanResult.log hin⟩

theorem ruleFixpoint_fires (rid : Nat) (b : Char) (bs good : List Char) (blocked : Bool)
    (nsk : String × String) (orig : String) (chars : List Char) (locks : List Bool)
    (log : List RuleApplication) (hlen : locks.length = chars.length)
    (hbl : blocked = false)
    (hall : locks.any (fun x => x) = false)
    (hocc : ∃ q, q + (b :: bs).length ≤ chars.length ∧
      (chars.drop q).take (b :: bs).length = b :: bs) :
    ∃ j', BlockAt (ruleFixpoint rid b bs good blocked nsk orig chars locks log hlen).chars
      (ruleFixpoint rid b bs good blocked nsk orig chars locks log hlen).locks
      j' good := by
  obtain ⟨q, hq1, hq2⟩ := hocc
  have hfirst := scanPass_fires rid b bs good blocked nsk orig hbl chars locks 0 false log
    hlen hall ⟨q, Nat.zero_le q, hq1, hq2⟩
  rw [ruleFixpoint]
  split
  · rename_i hc
    obtain ⟨j2, hb2⟩ := hfirst
    exact ruleFixpoint_block rid b bs good blocked nsk orig _ _ _ _ j2 good hb2
  · exact hfirst

theorem applyRule_block (rules : List Rule) (orig : String) (nsk : String × String)
    (r : Rule) (st : EngineState) (j : Nat) (w : List Char)
    (hb : BlockAt st.chars st.locks j w) :
    ∃ j', BlockAt (applyRule rules orig nsk r st).chars
      (applyRule rules orig nsk r st).locks j' w := by
  unfold applyRule
  split
  · exact ⟨j, hb⟩
  · split
    · exact ruleFixpoint_block _ _ _ _ _ _ _ _ _ _ _ j w hb
    · exact ⟨j, hb⟩

theorem applyRules_block (rules : List Rule) (orig : String) (nsk : String × String) :
    ∀ (rs : List Rule) (st : EngineState) (j : Nat) (w : List Char),
      BlockAt st.chars st.locks j w →
      ∃ j', BlockAt (applyRules rules orig nsk rs st).chars
        (applyRules rules orig nsk rs st).locks j' w := by
  intro rs
  induction rs with
  | nil => intro st j w hb; exact ⟨j, hb⟩
  | cons r rest ih =>
    intro st j w hb
    obtain ⟨j2, hb2⟩ := applyRule_block rules orig nsk r st j w hb
    exact ih (applyRule rules orig nsk r st) j2 w hb2

theorem isPrefixL_take (pat : List Char) :
    ∀ l, isPrefixL pat l = true → pat.length ≤ l.length ∧ l.take pat.length = pat := by
  induction pat with
  | nil => intro l _; simp
  | cons p ps ih =>
    intro l h
    cases l with
    | nil => simp [isPrefixL] at h
    | cons c cs =>
      simp only [isPrefixL, Bool.and_eq_true, beq_iff_eq] at h
      obtain ⟨hpc, hrest⟩ := h
      obtain ⟨hle, htake⟩ := ih cs hrest
      subst hpc
      constructor
      · simp only [List.length_cons]
        omega
      · simp [htake]

theorem containsSub_exists (hay pat : List Char) (h : containsSub hay pat = true) :
    ∃ q, q + pat.length ≤ hay.length ∧ (hay.drop q).take pat.length = pat := by
  induction hay with
  | nil =>
    simp only [containsSub] at h
    obtain ⟨hle, htake⟩ := isPrefixL_take pat [] h
    exact ⟨0, by simpa using hle, by simpa using htake⟩
  | cons c t ih =>
    simp only [containsSub, Bool.or_eq_true] at h
    rcases h with h | h
    · obtain ⟨hle, htake⟩ := isPrefixL_take pat (c :: t) h
      exact ⟨0, by simpa using hle, by simpa using htake⟩
    · obtain ⟨q, hq1, hq2⟩ := ih h
      refine ⟨q + 1, ?_, ?_⟩
      · simp only [List.length_cons]
        omega
      · simpa using hq2

/-- C6: safety of the lock mask and the conflict check, at every step of the
engine.  (i) Any locked block — in particular text inserted as a rule's good
substitution, which the engine locks on insertion — survives the processing
of any further rule list intact: no later rule rewrites inside it.  (ii) A
rule whose bad substring is claimed as good substring by a different active
rule, and which is not a self-consistent no-op, performs no replacement at
all.  Together these make "a rule undoes another rule's correction" an
unreachable state. -/
theorem rule_engine_conflict_safety :
    (∀ (rules : List Rule) (orig : String) (nsk : String × String) (rs : List Rule)
        (st : EngineState) (j : Nat) (w : List Char),
        BlockAt st.chars st.locks j w →
        ∃ j', BlockAt (applyRules rules orig nsk rs st).chars
          (applyRules rules orig nsk rs st).locks j' w) ∧
    (∀ (rules : List Rule) (orig : String) (nsk : String × String) (r : Rule)
        (st : EngineState),
        conflictBlocked rules orig.data r.rule_id r.badTranslation r.goodTranslation = true →
        (applyRule rules orig nsk r st).chars = st.chars ∧
        (applyRule rules orig nsk r st).locks = st.locks ∧
        (applyRule rules orig nsk r st).log = st.log) := by
  constructor
  · intro rules orig nsk rs st j w hb
    exact applyRules_block rules orig nsk rs st j w hb
  · intro rules orig nsk r st hconf
    unfold applyRule
    split
    · exact ⟨rfl, rfl, rfl⟩
    · rename_i b bs heq
      rw [heq] at hconf
      rw [hconf]
      split
      · exact ruleFixpoint_inert r.rule_id b bs r.goodTranslation nsk orig st.chars
          st.locks st.log st.hlen
      · exact ⟨rfl, rfl, rfl⟩

/-- Witness for C6 at concrete inputs. -/
theorem rule_engine_conflict_safety_witness :
    (∃ j', BlockAt
      (applyRules [⟨0, ['好'], [], ['b'], ['c']⟩] "好" ("n", "k")
        [⟨0, ['好'], [], ['b'], ['c']⟩]
        ⟨['a', 'b'], [true, true], [], by decide⟩).chars
      (applyRules [⟨0, ['好'], [], ['b'], ['c']⟩] "好" ("n", "k")
        [⟨0, ['好'], [], ['b'], ['c']⟩]
        ⟨['a', 'b'], [true, true], [], by decide⟩).locks j' ['a', 'b']) ∧
    (applyRule [⟨0, ['好'], [], ['x'], ['y']⟩, ⟨1, ['好'], [], ['z'], ['x']⟩] "好"
        ("n", "k") ⟨0, ['好'], [], ['x'], ['y']⟩
        ⟨['x'], [false], [], by decide⟩).chars =
      (⟨['x'], [false], [], by decide⟩ : EngineState).chars :=
  ⟨rule_engine_conflict_safety.1 [⟨0, ['好'], [], ['b'], ['c']⟩] "好" ("n", "k")
      [⟨0, ['好'], [], ['b'], ['c']⟩] ⟨['a', 'b'], [true, true], [], by decide⟩ 0
      ['a', 'b'] (by decide),
   (rule_engine_conflict_safety.2 [⟨0, ['好'], [], ['x'], ['y']⟩, ⟨1, ['好'], [], ['z'], ['x']⟩]
      "好" ("n", "k") ⟨0, ['好'], [], ['x'], ['y']⟩ ⟨['x'], [false], [], by decide⟩
      (by decide)).1⟩

set_option maxRecDepth 8192 in
/-- C5 counterexample: rules A = (source "好", bad "ab", good "X") and
B = (source "好", bad "b", good "ab"), with A's bad a strict superstring of
B's bad and A first in priority order, both applicable to an entry with
original text "好" and value "ab".  Because B claims "ab" — A's bad
substring — as its good substring, the conflict check blocks A entirely; B
then rewrites "b" inside "ab", and the engine returns "aab": A's correction
"X" never appears. -/
theorem rule_priority_counterexample :
    (execute_single_string_post_processing "好" "ab" ("n", "k")
      [⟨0, ['好'], [], ['a', 'b'], ['X']⟩, ⟨1, ['好'], [], ['b'], ['a', 'b']⟩]).1 =
      "aab" ∧
    containsSub ("aab" : String).data ['X'] = false := by
  constructor
  · simp +decide [execute_single_string_post_processing, applyRules, applyRule,
      ruleFixpoint, scanPass, conflictBlocked, goodOwners, ruleActive, containsSub,
      isPrefixL]
  · decide

/-- C5 (amended): let A and B be two rules with A's bad-target a strict
superstring of B's bad-target, A ordered first, both applicable to the
entry, and — the amendment forced by the counterexample —
suppose A's bad-target is not claimed as the good replacement of another
applicable rule (its conflict flag is off).  Then running the engine on a
value containing A's bad substring produces A's good replacement: the output
decomposes around an occurrence of A's good substring, inserted by A as a
locked block that no later rule can rewrite. -/
theorem rule_priority_amended (A B : Rule) (orig english : String) (nsk : String × String)
    (hAbad : A.badTranslation ≠ [])
    (hsuper : containsSub A.badTranslation B.badTranslation = true ∧
      A.badTranslation ≠ B.badTranslation)
    (hAact : ruleActive A orig.data = true)
    (hBact : ruleActive B orig.data = true)
    (hocc : containsSub english.data A.badTranslation = true)
    (hnoconf : conflictBlocked [A, B] orig.data A.rule_id A.badTranslation
      A.goodTranslation = false) :
    ∃ p s, (execute_single_string_post_processing orig english nsk [A, B]).1.data =
      p ++ A.goodTranslation ++ s := by
  have h1 : ∃ j, BlockAt
      (applyRule [A, B] orig nsk A
        ⟨english.data, List.replicate english.data.length false, [], by simp⟩).chars
      (applyRule [A, B] orig nsk A
        ⟨english.data, List.replicate english.data.length false, [], by simp⟩).locks
      j A.goodTranslation := by
    unfold applyRule
    split
    · rename_i heq
      exact absurd heq hAbad
    · rename_i b bs heq
      rw [if_pos hAact]
      apply ruleFixpoint_fires
      · rw [← heq]
        exact hnoconf
      · simp
      · obtain ⟨q, hq1, hq2⟩ := containsSub_exists english.data A.badTranslation hocc
        rw [heq] at hq1 hq2
        exact ⟨q, hq1, hq2⟩
  obtain ⟨j1, hb1⟩ := h1
  obtain ⟨j2, hb2⟩ := applyRules_block [A, B] orig nsk [B]
    (applyRule [A, B] orig nsk A
      ⟨english.data, List.replicate english.data.length false, [], by simp⟩)
    j1 A.goodTranslation hb1
  refine ⟨(applyRules [A, B] orig nsk [B]
      (applyRule [A, B] orig nsk A
        ⟨english.data, List.replicate english.data.length false, [], by simp⟩)).chars.take j2,
    (applyRules [A, B] orig nsk [B]
      (applyRule [A, B] orig nsk A
        ⟨english.data, List.replicate english.data.length false, [], by simp⟩)).chars.drop
      (j2 + A.goodTranslation.length), ?_⟩
  have hdec := blockAt_decomp _ _ j2 A.goodTranslation hb2
  exact hdec

/-- Witness for the amended C5 at concrete inputs. -/
theorem rule_priority_amended_witness :
    ∃ p s, (execute_single_string_post_processing "好" "zab" ("n", "k")
      [⟨0, ['好'], [], ['a', 'b'], ['X']⟩, ⟨1, ['好'], [], ['b'], ['Y']⟩]).1.data =
      p ++ ['X'] ++ s :=
  rule_priority_amended ⟨0, ['好'], [], ['a', 'b'], ['X']⟩ ⟨1, ['好'], [], ['b'], ['Y']⟩
    "好" "zab" ("n", "k") (by decide) (by decide) (by decide) (by decide) (by decide)
    (by decide)

set_option maxRecDepth 8192 in
/-- C8 counterexample: a rule with an empty bad-target still contributes its
good-target to the conflict map.  With R0 = (source "好", bad "x", good "y")
and R1 = (source "好", bad "", good "x"), the engine on value "x" leaves it
unchanged (R0 is conflict-blocked by R1's good "x"), while removing the
empty-bad rule lets R0 rewrite "x" to "y" — so the result does not equal the
result with empty-bad rules removed. -/
theorem empty_bad_rule_counterexample :
    (execute_single_string_post_processing "好" "x" ("n", "k")
      [⟨0, ['好'], [], ['x'], ['y']⟩, ⟨1, ['好'], [], [], ['x']⟩]).1 = "x" ∧
    (execute_single_string_post_processing "好" "x" ("n", "k")
      (([⟨0, ['好'], [], ['x'], ['y']⟩, ⟨1, ['好'], [], [], ['x']⟩] :
        List Rule).filter (fun r => !r.badTranslation.isEmpty))).1 = "y" ∧
    ("x" : String) ≠ "y" := by
  refine ⟨?_, ?_, by decide⟩
  · simp +decide [execute_single_string_post_processing, applyRules, applyRule,
      ruleFixpoint, scanPass, conflictBlocked, goodOwners, ruleActive, containsSub,
      isPrefixL]
  · simp +decide [execute_single_string_post_processing, applyRules, applyRule,
      ruleFixpoint, scanPass, conflictBlocked, goodOwners, ruleActive, containsSub,
      isPrefixL, List.filter]

/-- C8 (amended): a rule whose bad-target substring is empty performs no
substitution, leaves the engine state unchanged, and does not abort the
processing of the remaining rules: within the replacement loop, processing
`r :: rs` equals processing `rs`.  (It is skipped silently, and it still contributes its good-target
to the conflict map built from the full rule list, so the engine's result
need not equal the result with such rules removed from the list.) -/
theorem empty_bad_rule_skipped (all : List Rule) (orig : String) (nsk : String × String)
    (r : Rule) (rs : List Rule) (st : EngineState) (hr : r.badTranslation = []) :
    applyRules all orig nsk (r :: rs) st = applyRules all orig nsk rs st := by
  show applyRules all orig nsk rs (applyRule all orig nsk r st) = _
  congr 1
  unfold applyRule
  split
  · rfl
  · rename_i b bs heq
    rw [hr] at heq
    exact absurd heq (by simp)

/-- Witness for the amended C8 at concrete inputs. -/
theorem empty_bad_rule_skipped_witness :
    applyRules [⟨0, ['好'], [], [], ['x']⟩] "好" ("n", "k")
      [⟨0, ['好'], [], [], ['x']⟩] ⟨['a'], [false], [], by decide⟩ =
    applyRules [⟨0, ['好'], [], [], ['x']⟩] "好" ("n", "k") []
      ⟨['a'], [false], [], by decide⟩ :=
  empty_bad_rule_skipped [⟨0, ['好'], [], [], ['x']⟩] "好" ("n", "k")
    ⟨0, ['好'], [], [], ['x']⟩ [] ⟨['a'], [false], [], by decide⟩ (by decide)

end Zxsj
